import Mathlib

/-! # soundtools: score parser, timeline resolver and sample mixer

A shallow embedding of `src/main.cpp`.

Modelling conventions.

* A `std::string` is a list of characters (`Str`); the input file is the list of
  lines that successive `getline` calls return.
* `size_t` results of `find`-like functions are `Option Nat`, `none` standing for
  `std::string::npos`.
* `int` values are integers; the one `int` product of the program
  (`note.duration * sample_rate`) is reduced to 32 bits explicitly.
* A `double` that holds a sum or product of `int`s (`start_times_ms`, end times,
  sample positions) is modelled by the exact integer or quotient it denotes; this is
  exact as long as the magnitudes stay below `2^53`.
* The frequency of a note is modelled by the exact rational value of the literal that
  was read.  The `double` that `iss >> freq` stores is that value rounded to binary64;
  the two are equal when the value of the literal is a binary64 number (`IsBinary64`),
  which is what a statement about the stored frequency assumes.  Whether the extraction
  succeeds, and the sign of its result, do not depend on the rounding.
* The floating-point sine of the render pass is not computed: the value
  `static_cast<short>(sin(2 * M_PI * frequency * t) * max_amplitude)` is supplied by
  a function `contrib frequency s`, a parameter of the render pass.  At offset `s = 0`
  the value is known exactly: `t` is `0.0`, the argument of `sin` is a zero, and the
  product converts to `0` (`sineContribution`).
* `std::cerr` is a list of diagnostic lines.
-/

namespace SoundTools

/-- A `std::string`. -/
abbrev Str := List Char

/-! ## Data model (`struct Note`, `struct Track`) -/

/-- The `struct Note` of the program. -/
structure Note where
  delta_time : Int
  frequency : ℚ
  duration : Int
  deriving DecidableEq

instance : Inhabited Note := ⟨⟨0, 0, 0⟩⟩

/-- The `struct Track` of the program; `start_times_ms` holds integer-valued doubles. -/
structure Track where
  name : Str
  notes : List Note
  start_times_ms : List Int
  deriving DecidableEq

/-! ## `trim` -/

/-- Membership in the character set `" \t"`. -/
def isBlank (c : Char) : Bool := c = ' ' || c = '\t'

/-- The value `std::string::npos`, the largest `size_t`. -/
def npos : Nat := 18446744073709551615

/-- The call `str.find_first_not_of(" \t")`; `none` is `npos`. -/
def find_first_not_of : Str → Option Nat
  | [] => none
  | c :: cs => if isBlank c then (find_first_not_of cs).map (· + 1) else some 0

/-- The call `str.find_last_not_of(" \t")`; `none` is `npos`. -/
def find_last_not_of : Str → Option Nat
  | [] => none
  | c :: cs =>
    match find_last_not_of cs with
    | some i => some (i + 1)
    | none => if isBlank c then none else some 0

/-- The call `str.substr(pos, count)` for `pos <= str.size()`: the count is clamped to the
characters that remain. -/
def substr (str : Str) (pos count : Nat) : Str := (str.drop pos).take count

/-- The function `std::string trim(const std::string& str)`.  When `first` exists so does `last`, and
`first <= last`, so the `size_t` expression `last - first + 1` does not wrap. -/
def trim (str : Str) : Str :=
  match find_first_not_of str with
  | none => []
  | some first =>
    let last := (find_last_not_of str).getD npos
    substr str first (last - first + 1)

/-! ## `computeStartTimes` -/

/-- The `for` loop of `computeStartTimes`: `n` iterations remain, `i` is the loop
index and `st` the vector `start_times_ms` built so far. -/
def startTimesLoop (notes : List Note) : Nat → Nat → List Int → List Int
  | 0, _, st => st
  | n + 1, i, st =>
    let prev_end := st.getD (i - 1) 0 + (notes.getD (i - 1) default).duration
    startTimesLoop notes n (i + 1) (st ++ [prev_end + (notes.getD i default).delta_time])

/-- The function `void computeStartTimes(Track& track)`, returning the updated track. -/
def computeStartTimes (track : Track) : Track :=
  match track.notes with
  | [] => track
  | n0 :: _ =>
    { track with
      start_times_ms := startTimesLoop track.notes (track.notes.length - 1) 1 [n0.delta_time] }

/-! ## Stream extraction (`iss >> delta >> freq >> duration`)

The extraction operators are those of the standard library in the classic locale
(`num_get`, as implemented by libstdc++): leading white space is skipped, an `int` is
an optional sign and a non-empty run of decimal digits whose value fits in 32 bits,
and a `double` is an optional sign, decimal digits with at most one decimal point and
an optional decimal exponent, whose value does not overflow binary64. -/

/-- The `isspace` of the classic locale. -/
def isSpace (c : Char) : Bool :=
  c = ' ' || c = '\t' || c = '\n' || c = '\x0b' || c = '\x0c' || c = '\r'

/-- Decimal digits. -/
def isDigit (c : Char) : Bool := decide ('0'.toNat ≤ c.toNat) && decide (c.toNat ≤ '9'.toNat)

/-- The value of a decimal digit. -/
def digitVal (c : Char) : Nat := c.toNat - '0'.toNat

/-- The value of a run of decimal digits, most significant first. -/
def digitsValue (ds : Str) : Nat := ds.foldl (fun acc c => acc * 10 + digitVal c) 0

/-- An optional sign: whether it is a minus, and the characters after it. -/
def readSign : Str → Bool × Str
  | '-' :: cs => (true, cs)
  | '+' :: cs => (false, cs)
  | cs => (false, cs)

/-- The sign applied to a magnitude. -/
def applySign (neg : Bool) (v : Int) : Int := if neg then -v else v

/-- The least `int`. -/
def INT_MIN : Int := -2147483648

/-- The greatest `int`. -/
def INT_MAX : Int := 2147483647

/-- The operator `iss >> (int&)`: the value and the unread characters, `none` when the
stream is left in a failed state. -/
def readInt (s : Str) : Option (Int × Str) :=
  let r := readSign (s.dropWhile isSpace)
  let ds := r.2.takeWhile isDigit
  if ds = [] then none
  else
    let v := applySign r.1 (digitsValue ds)
    if v < INT_MIN ∨ INT_MAX < v then none else some (v, r.2.dropWhile isDigit)

/-- A decimal point and the digits after it, when the next character is a point. -/
def readFraction : Str → Str × Str
  | '.' :: cs => (cs.takeWhile isDigit, cs.dropWhile isDigit)
  | cs => ([], cs)

/-- An exponent part `e[sign]digits`: `some (exponent, rest)`, with exponent `0` and
nothing consumed when the next character is not `e` or `E`, and `none` when the
exponent has no digit (the conversion of the accumulated characters then fails). -/
def readExponent : Str → Option (Int × Str)
  | [] => some (0, [])
  | c :: cs =>
    if c = 'e' ∨ c = 'E' then
      let r := readSign cs
      let ds := r.2.takeWhile isDigit
      if ds = [] then none else some (applySign r.1 (digitsValue ds), r.2.dropWhile isDigit)
    else some (0, c :: cs)

/-- The least magnitude that `strtod` rounds to infinity: `2^1024 - 2^970`. -/
def doubleOverflow : ℚ := 2 ^ 1024 - 2 ^ 970

/-- The operator `iss >> (double&)`: the exact value of the literal and the unread
characters, `none` when the stream is left in a failed state.  The number stored by the
program is this value rounded to binary64, and is this value when it is a binary64
number. -/
def readDouble (s : Str) : Option (ℚ × Str) :=
  let r := readSign (s.dropWhile isSpace)
  let ip := r.2.takeWhile isDigit
  let fr := readFraction (r.2.dropWhile isDigit)
  if ip = [] ∧ fr.1 = [] then none
  else
    match readExponent fr.2 with
    | none => none
    | some (e, rest) =>
      let v : ℚ := (applySign r.1 (digitsValue (ip ++ fr.1)) : Int) * 10 ^ (e - fr.1.length)
      if doubleOverflow ≤ |v| then none else some (v, rest)

/-- The extraction `iss >> delta >> freq >> duration` on the stream over `note_str`. -/
def extractNote (note_str : Str) : Option Note :=
  match readInt note_str with
  | none => none
  | some (delta, r1) =>
    match readDouble r1 with
    | none => none
    | some (freq, r2) =>
      match readInt r2 with
      | none => none
      | some (duration, _) => some ⟨delta, freq, duration⟩

/-! ## `parseInput` -/

/-- The call `line.find(c)`; `none` is `npos`. -/
def find : Str → Char → Option Nat
  | [], _ => none
  | x :: xs, c => if x = c then some 0 else (find xs c).map (· + 1)

/-- The local variables of `parseInput` that live across loop iterations, and the
diagnostics written to `std::cerr` so far. -/
structure ParseState where
  tracks : List Track
  current_track : Track
  in_track : Bool
  cerr : List Str
  deriving DecidableEq

/-- The text taken as `note_str`: `line.substr(1, line.find(']') - 1)`.  When `]` is
absent the count is `npos - 1`. -/
def noteStr (line : Str) : Str :=
  match find line ']' with
  | some p => substr line 1 (p - 1)
  | none => substr line 1 (npos - 1)

/-- The call `std::replace(note_str.begin(), note_str.end(), ',', ' ')`. -/
def replaceCommas (note_str : Str) : Str := note_str.map (fun c => if c = ',' then ' ' else c)

/-- The branch of the loop body taken when `in_track` is false. -/
def parseOutside (st : ParseState) (line : Str) : ParseState :=
  if "track".toList <+: line then
    match find line '{' with
    | none =>
      { st with cerr := st.cerr ++ ["Syntax error: Missing '\x7b' in track definition".toList] }
    | some brace_pos =>
      { st with
        current_track :=
          { st.current_track with name := trim (substr line 5 (brace_pos - 5)), notes := [] }
        in_track := true }
  else st

/-- The branch of the loop body taken when `in_track` is true. -/
def parseInside (st : ParseState) (line : Str) : ParseState :=
  if '}' ∈ line then
    if st.current_track.notes ≠ [] then
      let resolved := computeStartTimes st.current_track
      { st with tracks := st.tracks ++ [resolved], current_track := resolved, in_track := false }
    else
      { st with
        cerr := st.cerr ++
          ["Track ".toList ++ st.current_track.name ++ " has no notes. Skipping.".toList]
        in_track := false }
  else if line.head? ≠ some '[' then
    { st with cerr := st.cerr ++ ["Invalid note format: ".toList ++ line] }
  else
    match extractNote (replaceCommas (noteStr line)) with
    | none => { st with cerr := st.cerr ++ ["Failed to parse note: ".toList ++ line] }
    | some note =>
      { st with current_track :=
          { st.current_track with notes := st.current_track.notes ++ [note] } }

/-- One iteration of the `while (getline(file, line))` loop. -/
def parseLine (st : ParseState) (raw : Str) : ParseState :=
  let line := trim raw
  if line = [] ∨ line.head? = some '#' then st
  else if st.in_track = false then parseOutside st line
  else parseInside st line

/-- The state before the first line is read. -/
def initState : ParseState := ⟨[], ⟨[], [], []⟩, false, []⟩

/-- The state after all lines of the file have been read. -/
def parseRun (lines : List Str) : ParseState := lines.foldl parseLine initState

/-- The function `std::vector<Track> parseInput(const std::string& filename)`, on the lines of the
file. -/
def parseInput (lines : List Str) : List Track := (parseRun lines).tracks

/-! ## The synthesizer in `main` -/

/-- The constant `sample_rate`. -/
def sample_rate : Int := 44100

/-- The inner loop of the sizing pass over one track: `n` iterations remain. -/
def maxEndLoop (track : Track) : Nat → Nat → Int → Int
  | 0, _, max_end_time => max_end_time
  | n + 1, i, max_end_time =>
    let end_time := track.start_times_ms.getD i 0 + (track.notes.getD i default).duration
    maxEndLoop track n (i + 1) (max max_end_time end_time)

/-- The sizing pass: the final value of `max_end_time`. -/
def maxEndTime (tracks : List Track) : Int :=
  tracks.foldl (fun max_end_time track => maxEndLoop track track.notes.length 0 max_end_time) 0

/-- The conversion `static_cast<size_t>(x / 1000.0)` of the quotient of an integer-valued
double by `1000.0`: truncation toward zero.  For a negative quotient the conversion
is undefined in C++; the model takes the two's-complement result of x86-64. -/
def toSizeT (x : Int) : Nat :=
  let q := Int.tdiv x 1000
  if 0 ≤ q then q.toNat else (18446744073709551616 + q).toNat

/-- The value `total_samples`. -/
def total_samples (tracks : List Track) : Nat := toSizeT (maxEndTime tracks * sample_rate)

/-- Reduction of an `int` result to 32 bits, two's complement. -/
def wrapInt (x : Int) : Int := (x + 2147483648) % 4294967296 - 2147483648

/-- Conversion of an `int` to `short`: reduction to 16 bits, two's complement. -/
def toShort (x : Int) : Int := (x + 32768) % 65536 - 32768

/-- The two statements that update one sample: `buffer[k] += c` on a `short` (the sum is
formed in `int` and converted back to `short`), followed by
`buffer[k] = std::max<short>(-32768, std::min<short>(32767, buffer[k]))`. -/
def mixSample (v c : Int) : Int := max (-32768) (min 32767 (toShort (v + c)))

/-- The loop `for (size_t s = 0; s < duration_samples; ++s)`: `n` iterations remain;
`c s` is the converted sine value at offset `s`. -/
def sampleLoop (c : Nat → Int) (start_sample : Nat) : Nat → Nat → List Int → List Int
  | 0, _, buffer => buffer
  | n + 1, s, buffer =>
    if buffer.length ≤ start_sample + s then buffer
    else
      sampleLoop c start_sample n (s + 1)
        (buffer.set (start_sample + s) (mixSample (buffer.getD (start_sample + s) 0) (c s)))

/-- The body of the loop over the notes of a track, for the note of index `i`. -/
def renderNote (contrib : ℚ → Nat → Int) (track : Track) (i : Nat) (buffer : List Int) :
    List Int :=
  let note := track.notes.getD i default
  let start_time := track.start_times_ms.getD i 0
  let start_sample := toSizeT (start_time * sample_rate)
  let duration_samples := toSizeT (wrapInt (note.duration * sample_rate))
  sampleLoop (contrib note.frequency) start_sample duration_samples 0 buffer

/-- The loop over the notes of one track: `n` iterations remain. -/
def renderTrackLoop (contrib : ℚ → Nat → Int) (track : Track) :
    Nat → Nat → List Int → List Int
  | 0, _, buffer => buffer
  | n + 1, i, buffer => renderTrackLoop contrib track n (i + 1) (renderNote contrib track i buffer)

/-- The render pass over all tracks, starting from the buffer `buffer`. -/
def renderPass (contrib : ℚ → Nat → Int) (tracks : List Track) (buffer : List Int) : List Int :=
  tracks.foldl (fun buf track => renderTrackLoop contrib track track.notes.length 0 buf) buffer

/-- The sample buffer handed to the playback library: `std::vector<short>
buffer(total_samples, 0)` after the render pass. -/
def renderBuffer (contrib : ℚ → Nat → Int) (tracks : List Track) : List Int :=
  renderPass contrib tracks (List.replicate (total_samples tracks) 0)

/-- The end time of the note of index `i` of a track: `start_times_ms[i] + notes[i].duration`. -/
def endTime (track : Track) (i : Nat) : Int :=
  track.start_times_ms.getD i 0 + (track.notes.getD i default).duration

/-- The end times of all (track, note index) pairs of a score. -/
def endTimes (tracks : List Track) : List Int :=
  tracks.flatMap (fun track => (List.range track.notes.length).map (endTime track))

/-- Every sample of a buffer is a value of `short`. -/
def InRange (buffer : List Int) : Prop := ∀ x ∈ buffer, -32768 ≤ x ∧ x ≤ 32767

/-- A string without its trailing spaces and tabs. -/
def rstrip : Str → Str
  | [] => []
  | c :: cs => if rstrip cs = [] ∧ isBlank c = true then [] else c :: rstrip cs

/-- The character of a decimal digit. -/
def digitChar (d : Nat) : Char := Char.ofNat (d + 48)

/-- The decimal numeral of a natural number. -/
def showNat (n : Nat) : Str :=
  if n = 0 then ['0'] else (Nat.digits 10 n).reverse.map digitChar

/-- The decimal numeral of an integer, with a leading `-` when it is negative. -/
def showInt (z : Int) : Str :=
  if z < 0 then '-' :: showNat z.natAbs else showNat z.natAbs

/-- The rational `q` is the value of a finite binary64 number: an integer of magnitude
below `2^53` times a power of two with an exponent between `-1074` and `971`. -/
def IsBinary64 (q : ℚ) : Prop :=
  ∃ (m e : Int), |m| < 2 ^ 53 ∧ -1074 ≤ e ∧ e ≤ 971 ∧ q = (m : ℚ) * 2 ^ e

/-- A note as it is written in the input.  The frequency is the decimal
`mantissa * 10 ^ exponent`; it is written `<mantissa>` when there is no exponent and
`<mantissa>e<exponent>` otherwise. -/
structure NoteText where
  delta : Int
  mantissa : Int
  exponent : Option Int
  duration : Int

/-- The frequency that a written note denotes. -/
def NoteText.frequency (w : NoteText) : ℚ := (w.mantissa : ℚ) * 10 ^ (w.exponent.getD 0)

/-- The note that a written note denotes. -/
def NoteText.note (w : NoteText) : Note := ⟨w.delta, w.frequency, w.duration⟩

/-- The written note denotes a value of `struct Note`: the two `int` fields fit in 32
bits and the frequency is a finite binary64 number. -/
def NoteText.Valid (w : NoteText) : Prop :=
  (INT_MIN ≤ w.delta ∧ w.delta ≤ INT_MAX) ∧ (INT_MIN ≤ w.duration ∧ w.duration ≤ INT_MAX) ∧
    IsBinary64 w.frequency

/-- The numeral of the frequency of a written note. -/
def NoteText.freqText (w : NoteText) : Str :=
  match w.exponent with
  | none => showInt w.mantissa
  | some x => showInt w.mantissa ++ ('e' :: showInt x)

/-- The input line `[<delta>, <frequency>, <duration>]` of a written note. -/
def NoteText.line (w : NoteText) : Str :=
  '[' :: (showInt w.delta ++ (',' :: ' ' :: (w.freqText
    ++ (',' :: ' ' :: (showInt w.duration ++ [']'])))))

/-- The header line `track <name> {` of a block. -/
def headerLine (name : Str) : Str := "track ".toList ++ name ++ [' ', '{']

/-- The closing line of a block. -/
def closingLine : Str := ['}']

/-- The input of one block: header line, one line per note, closing line. -/
def blockLines (name : Str) (ws : List NoteText) : List Str :=
  headerLine name :: (ws.map NoteText.line ++ [closingLine])

/-- The next character of `r`, if any, does not satisfy `p`. -/
def StopsAt (p : Char → Bool) (r : Str) : Prop := ∀ c, r.head? = some c → p c = false

/-- The text between the brackets of the line of a written note. -/
def NoteText.content (w : NoteText) : Str :=
  showInt w.delta ++ (',' :: ' ' :: (w.freqText ++ (',' :: ' ' :: showInt w.duration)))

/-- A string without its longest leading run and its longest trailing run of spaces and
tabs. -/
def stripBlanks (s : Str) : Str :=
  ((s.dropWhile isBlank).reverse.dropWhile isBlank).reverse

/-- Two parser states agree on the variables of `parseInput` (the committed tracks, the
track under construction and the flag); the diagnostics written so far may differ. -/
def SameState (st1 st2 : ParseState) : Prop :=
  st1.tracks = st2.tracks ∧ st1.current_track = st2.current_track ∧
    st1.in_track = st2.in_track

/-- A line that the parser reports and skips, read in state `st`: outside of a track, a
line that starts with `track` and has no opening brace; inside a track, a line without a
closing brace that does not start with `[` or whose note text does not yield the three
numbers. -/
def ErrorLine (st : ParseState) (raw : Str) : Prop :=
  (st.in_track = false ∧ "track".toList <+: trim raw ∧ '{' ∉ trim raw) ∨
  (st.in_track = true ∧ '}' ∉ trim raw ∧
    ((trim raw).head? ≠ some '[' ∨ extractNote (replaceCommas (noteStr (trim raw))) = none))

/-- The parser state `st1` carries the committed tracks `T` ahead of those of `st2` and
otherwise agrees with it on everything a later line can observe: the flag and, inside a
track, the name and the notes of the track under construction. -/
def Ahead (T : List Track) (st1 st2 : ParseState) : Prop :=
  st1.tracks = T ++ st2.tracks ∧ st1.in_track = st2.in_track ∧
    (st1.in_track = true → st1.current_track.name = st2.current_track.name ∧
      st1.current_track.notes = st2.current_track.notes)

/-- The value `start_sample` of the render pass for the note of index `i` of a track. -/
def startSample (track : Track) (i : Nat) : Nat :=
  toSizeT (track.start_times_ms.getD i 0 * sample_rate)

/-- The value `duration_samples` of the render pass for the note of index `i` of a
track. -/
def durationSamples (track : Track) (i : Nat) : Nat :=
  toSizeT (wrapInt ((track.notes.getD i default).duration * sample_rate))

/-- A note with its duration replaced. -/
def setDuration (note : Note) (d : Int) : Note := ⟨note.delta_time, note.frequency, d⟩

/-- The notes of a track with the duration of the note of index `i` replaced by `d`. -/
def notesWithDuration (notes : List Note) (i : Nat) (d : Int) : List Note :=
  notes.set i (setDuration (notes.getD i default) d)

/-- The track `track` after the duration of its note of index `i` is replaced by `d` and
its start times are resolved again. -/
def withDuration (track : Track) (i : Nat) (d : Int) : Track :=
  computeStartTimes { track with notes := notesWithDuration track.notes i d }

/-- An operation on sample buffers that keeps the length and, at every index it touches,
replaces the sample `v` by `toShort (v + d)` for an amount `d` that depends on the index
only. -/
def Additive (G : List Int → List Int) : Prop :=
  ∃ (touched : Nat → Bool) (amount : Nat → Int), ∀ buffer : List Int,
    (G buffer).length = buffer.length ∧
    ∀ k, k < buffer.length →
      (G buffer).getD k 0
        = if touched k = true then toShort (buffer.getD k 0 + amount k) else buffer.getD k 0

/-! # Lemmas and theorems -/

/-! ## `computeStartTimes` -/

theorem startTimesLoop_length (notes : List Note) (n i : Nat) (st : List Int) :
    (startTimesLoop notes n i st).length = st.length + n := by
  induction n generalizing i st with
  | zero => simp [startTimesLoop]
  | succ n ih => simp [startTimesLoop, ih]; omega

theorem startTimesLoop_getD_lt (notes : List Note) (n i : Nat) (st : List Int) (k : Nat)
    (hk : k < st.length) : (startTimesLoop notes n i st).getD k 0 = st.getD k 0 := by
  induction n generalizing i st with
  | zero => simp [startTimesLoop]
  | succ n ih =>
    simp only [startTimesLoop]
    rw [ih _ _ (by simp; omega), List.getD_append _ _ _ _ hk]

theorem startTimesLoop_step (notes : List Note) (n i : Nat) (st : List Int) (k : Nat)
    (hi : st.length = i) (hpos : 1 ≤ i) (h1 : i ≤ k) (h2 : k < i + n) :
    (startTimesLoop notes n i st).getD k 0
      = (startTimesLoop notes n i st).getD (k - 1) 0 + (notes.getD (k - 1) default).duration
        + (notes.getD k default).delta_time := by
  induction n generalizing i st with
  | zero => omega
  | succ n ih =>
    simp only [startTimesLoop]
    by_cases hk : k = i
    · subst hk
      rw [startTimesLoop_getD_lt _ _ _ _ k (by simp; omega),
        startTimesLoop_getD_lt _ _ _ _ (k - 1) (by simp; omega),
        List.getD_append _ _ _ _ (by omega : k - 1 < st.length),
        List.getD_append_right _ _ _ _ (by omega)]
      simp [hi]
    · exact ih (i + 1) _ (by simp; omega) (by omega) (by omega) (by omega)

theorem computeStartTimes_nil (track : Track) (h : track.notes = []) :
    computeStartTimes track = track := by
  obtain ⟨name, notes, st⟩ := track
  subst h
  rfl

theorem computeStartTimes_name (track : Track) :
    (computeStartTimes track).name = track.name := by
  obtain ⟨name, notes, st⟩ := track
  cases notes <;> rfl

theorem computeStartTimes_notes (track : Track) :
    (computeStartTimes track).notes = track.notes := by
  obtain ⟨name, notes, st⟩ := track
  cases notes <;> rfl

theorem computeStartTimes_length (track : Track) (h : track.notes ≠ []) :
    (computeStartTimes track).start_times_ms.length = track.notes.length := by
  obtain ⟨name, notes, st⟩ := track
  cases notes with
  | nil => exact absurd rfl h
  | cons n0 ns => simp [computeStartTimes, startTimesLoop_length]; omega

theorem computeStartTimes_getD_zero (track : Track) (h : track.notes ≠ []) :
    (computeStartTimes track).start_times_ms.getD 0 0
      = (track.notes.getD 0 default).delta_time := by
  obtain ⟨name, notes, st⟩ := track
  cases notes with
  | nil => exact absurd rfl h
  | cons n0 ns =>
    simp only [computeStartTimes]
    rw [startTimesLoop_getD_lt _ _ _ _ 0 (by simp)]
    simp

theorem computeStartTimes_getD_succ (track : Track) (i : Nat) (h1 : 1 ≤ i)
    (h2 : i < track.notes.length) :
    (computeStartTimes track).start_times_ms.getD i 0
      = (computeStartTimes track).start_times_ms.getD (i - 1) 0
        + (track.notes.getD (i - 1) default).duration
        + (track.notes.getD i default).delta_time := by
  obtain ⟨name, notes, st⟩ := track
  cases notes with
  | nil => simp at h2
  | cons n0 ns =>
    simp only [computeStartTimes]
    exact startTimesLoop_step _ _ 1 _ i rfl (le_refl 1) h1 (by simp at h2 ⊢; omega)

/-- C1: `computeStartTimes` leaves a track without notes unchanged; on a track with
`N >= 1` notes it keeps name and notes, and `start_times_ms` gets exactly `N` entries with
`start_times_ms[0] = notes[0].delta_time` and, for `1 <= i < N`,
`start_times_ms[i] = start_times_ms[i-1] + notes[i-1].duration + notes[i].delta_time`,
whatever `start_times_ms` held before. -/
theorem computeStartTimes_contract (track : Track) :
    (track.notes = [] → computeStartTimes track = track) ∧
    (track.notes ≠ [] →
      (computeStartTimes track).name = track.name ∧
      (computeStartTimes track).notes = track.notes ∧
      (computeStartTimes track).start_times_ms.length = track.notes.length ∧
      (computeStartTimes track).start_times_ms.getD 0 0
        = (track.notes.getD 0 default).delta_time ∧
      (∀ i, 1 ≤ i → i < track.notes.length →
        (computeStartTimes track).start_times_ms.getD i 0
          = (computeStartTimes track).start_times_ms.getD (i - 1) 0
            + (track.notes.getD (i - 1) default).duration
            + (track.notes.getD i default).delta_time) ∧
      (∀ old : List Int,
        (computeStartTimes { track with start_times_ms := old }).start_times_ms
          = (computeStartTimes track).start_times_ms)) := by
  obtain ⟨name, notes, st⟩ := track
  cases notes with
  | nil => simp [computeStartTimes]
  | cons n0 ns =>
    refine ⟨by simp, fun _ => ⟨rfl, rfl, ?_, ?_, ?_, fun _ => rfl⟩⟩
    · simp [computeStartTimes, startTimesLoop_length]; omega
    · simp only [computeStartTimes]
      rw [startTimesLoop_getD_lt _ _ _ _ 0 (by simp)]
      simp
    · intro i h1 h2
      simp only [computeStartTimes]
      exact startTimesLoop_step _ _ 1 _ i rfl (le_refl 1) h1 (by simp at h2 ⊢; omega)

theorem computeStartTimes_contract_witness :
    (computeStartTimes ⟨[], [⟨5, 440, 100⟩, ⟨7, 220, 30⟩], [99]⟩).start_times_ms.length = 2 ∧
    (computeStartTimes ⟨[], [⟨5, 440, 100⟩, ⟨7, 220, 30⟩], [99]⟩).start_times_ms.getD 0 0 = 5 ∧
    (computeStartTimes ⟨[], [⟨5, 440, 100⟩, ⟨7, 220, 30⟩], [99]⟩).start_times_ms.getD 1 0
      = (computeStartTimes ⟨[], [⟨5, 440, 100⟩, ⟨7, 220, 30⟩], [99]⟩).start_times_ms.getD 0 0
        + 100 + 7 :=
  ⟨((computeStartTimes_contract ⟨[], [⟨5, 440, 100⟩, ⟨7, 220, 30⟩], [99]⟩).2 (by simp)).2.2.1,
   ((computeStartTimes_contract ⟨[], [⟨5, 440, 100⟩, ⟨7, 220, 30⟩], [99]⟩).2 (by simp)).2.2.2.1,
   ((computeStartTimes_contract ⟨[], [⟨5, 440, 100⟩, ⟨7, 220, 30⟩], [99]⟩).2
      (by simp)).2.2.2.2.1 1 (le_refl 1) (by decide)⟩

/-! ## The sizing pass -/

theorem getD_mem_of_lt {α : Type} (l : List α) (i : Nat) (d : α) (hi : i < l.length) :
    l.getD i d ∈ l := by
  rw [List.getD_eq_getElem _ _ hi]
  exact List.getElem_mem _

theorem mem_endTimes {tracks : List Track} {e : Int} :
    e ∈ endTimes tracks ↔ ∃ t ∈ tracks, ∃ i, i < t.notes.length ∧ endTime t i = e := by
  simp [endTimes, List.mem_flatMap]

theorem maxEndLoop_spec (track : Track) (n i : Nat) (m : Int) :
    m ≤ maxEndLoop track n i m ∧
    (∀ k, i ≤ k → k < i + n → endTime track k ≤ maxEndLoop track n i m) ∧
    (maxEndLoop track n i m = m ∨
      ∃ k, i ≤ k ∧ k < i + n ∧ maxEndLoop track n i m = endTime track k) := by
  induction n generalizing i m with
  | zero => simp [maxEndLoop]; intro k h1 h2; omega
  | succ n ih =>
    simp only [maxEndLoop]
    obtain ⟨h1, h2, h3⟩ := ih (i + 1) (max m (endTime track i))
    simp only [endTime] at h1 h2 h3 ⊢
    refine ⟨le_trans (le_max_left _ _) h1, ?_, ?_⟩
    · intro k hk1 hk2
      by_cases hk : k = i
      · subst hk; exact le_trans (le_max_right _ _) h1
      · exact h2 k (by omega) (by omega)
    · rcases h3 with h3 | ⟨k, hk1, hk2, hk3⟩
      · rcases max_cases m (endTime track i) with ⟨hm, _⟩ | ⟨hm, _⟩
        · left; simp only [endTime] at hm; rw [h3, hm]
        · right; refine ⟨i, le_refl _, by omega, ?_⟩
          simp only [endTime] at hm; rw [h3, hm]
      · right; exact ⟨k, by omega, by omega, hk3⟩

theorem maxEnd_foldl_spec (tracks : List Track) (m : Int) :
    let M := tracks.foldl
      (fun max_end_time track => maxEndLoop track track.notes.length 0 max_end_time) m
    m ≤ M ∧ (∀ e ∈ endTimes tracks, e ≤ M) ∧ (M = m ∨ M ∈ endTimes tracks) := by
  induction tracks generalizing m with
  | nil => simp [endTimes]
  | cons t ts ih =>
    simp only [List.foldl_cons]
    obtain ⟨h1, h2, h3⟩ := ih (maxEndLoop t t.notes.length 0 m)
    obtain ⟨g1, g2, g3⟩ := maxEndLoop_spec t t.notes.length 0 m
    refine ⟨le_trans g1 h1, ?_, ?_⟩
    · intro e he
      rw [mem_endTimes] at he
      obtain ⟨t', ht', i, hi, rfl⟩ := he
      rcases List.mem_cons.1 ht' with rfl | ht'
      · exact le_trans (g2 i (Nat.zero_le _) (by omega)) h1
      · exact h2 _ (mem_endTimes.2 ⟨t', ht', i, hi, rfl⟩)
    · rcases h3 with h3 | h3
      · rcases g3 with g3 | ⟨k, _, hk, g3⟩
        · left; rw [h3, g3]
        · right; rw [h3, g3]
          exact mem_endTimes.2 ⟨t, List.mem_cons_self _ _, k, by omega, rfl⟩
      · right
        obtain ⟨t', ht', i, hi, he⟩ := mem_endTimes.1 h3
        exact mem_endTimes.2 ⟨t', List.mem_cons_of_mem _ ht', i, hi, he⟩

theorem maxEndTime_spec (tracks : List Track) :
    0 ≤ maxEndTime tracks ∧ (∀ e ∈ endTimes tracks, e ≤ maxEndTime tracks) ∧
    (maxEndTime tracks = 0 ∨ maxEndTime tracks ∈ endTimes tracks) :=
  maxEnd_foldl_spec tracks 0

/-- The resolved start times of a track whose notes have non-negative fields are
non-negative. -/
theorem startTimes_nonneg (track : Track) (hres : computeStartTimes track = track)
    (hnn : ∀ n ∈ track.notes, 0 ≤ n.delta_time ∧ 0 ≤ n.duration) (i : Nat)
    (hi : i < track.notes.length) : 0 ≤ track.start_times_ms.getD i 0 := by
  induction i with
  | zero =>
    have hne : track.notes ≠ [] := by intro h; simp [h] at hi
    rw [← hres, computeStartTimes_getD_zero track hne]
    exact (hnn _ (getD_mem_of_lt track.notes 0 default hi)).1
  | succ i ih =>
    have h := computeStartTimes_getD_succ track (i + 1) (by omega) hi
    rw [hres] at h
    rw [h]
    have := ih (by omega)
    have h1 := (hnn _ (getD_mem_of_lt track.notes (i + 1) default hi)).1
    have h2 := (hnn (track.notes.getD i default)
      (getD_mem_of_lt _ _ _ (by omega))).2
    simp only [Nat.add_sub_cancel]
    omega

theorem toSizeT_nonneg (x : Int) (hx : 0 ≤ x) : (toSizeT x : Int) = x / 1000 := by
  have h : 0 ≤ Int.tdiv x 1000 := Int.tdiv_nonneg hx (by norm_num)
  rw [toSizeT, if_pos h, Int.toNat_of_nonneg h, Int.tdiv_eq_ediv hx (by norm_num)]

/-- C3: for a score whose start times are the resolved ones and whose notes have
`delta_time >= 0` and `duration >= 0`, the buffer length `total_samples` is `0` when the
score has no note, and otherwise is `floor(m * 44100 / 1000)` for the maximum `m` of
`start_times_ms[i] + notes[i].duration` over all tracks and note indices. -/
theorem total_samples_eq_floor (tracks : List Track)
    (hres : ∀ t ∈ tracks, computeStartTimes t = t)
    (hnn : ∀ t ∈ tracks, ∀ n ∈ t.notes, 0 ≤ n.delta_time ∧ 0 ≤ n.duration) :
    (endTimes tracks = [] → total_samples tracks = 0) ∧
    (endTimes tracks ≠ [] → ∃ m ∈ endTimes tracks, (∀ e ∈ endTimes tracks, e ≤ m) ∧
      (total_samples tracks : Int) = ⌊(m : ℚ) * 44100 / 1000⌋) := by
  obtain ⟨h0, hub, hmem⟩ := maxEndTime_spec tracks
  have hfloor : (total_samples tracks : Int) = ⌊(maxEndTime tracks : ℚ) * 44100 / 1000⌋ := by
    rw [total_samples, toSizeT_nonneg _ (by simp only [sample_rate]; omega)]
    have : (maxEndTime tracks : ℚ) * 44100 / 1000
        = ((maxEndTime tracks * sample_rate : Int) : ℚ) / ((1000 : Nat) : ℚ) := by
      simp [sample_rate]
    rw [this, Rat.floor_intCast_div_natCast]
    rfl
  refine ⟨fun hnil => ?_, fun hne => ?_⟩
  · have hM : maxEndTime tracks = 0 := by
      rcases hmem with h | h
      · exact h
      · rw [hnil] at h; simp at h
    have := hfloor
    rw [hM] at this
    simpa using this
  · rcases hmem with h | h
    · obtain ⟨e, he⟩ := List.exists_mem_of_ne_nil _ hne
      have hle : e ≤ 0 := h ▸ hub e he
      obtain ⟨t, ht, i, hi, hei⟩ := mem_endTimes.1 he
      have hs := startTimes_nonneg t (hres t ht) (hnn t ht) i hi
      have hd := (hnn t ht (t.notes.getD i default)
        (getD_mem_of_lt _ _ _ hi)).2
      have he0 : e = 0 := by simp only [endTime] at hei; omega
      refine ⟨e, he, fun e' he' => ?_, ?_⟩
      · rw [he0, ← h]; exact hub e' he'
      · rw [hfloor, h, he0]
    · exact ⟨maxEndTime tracks, h, hub, hfloor⟩

theorem total_samples_eq_floor_witness :
    (∃ m ∈ endTimes [⟨[], [⟨5, 440, 100⟩, ⟨7, 220, 30⟩], [5, 112]⟩],
      (∀ e ∈ endTimes [⟨[], [⟨5, 440, 100⟩, ⟨7, 220, 30⟩], [5, 112]⟩], e ≤ m) ∧
      (total_samples [⟨[], [⟨5, 440, 100⟩, ⟨7, 220, 30⟩], [5, 112]⟩] : Int)
        = ⌊(m : ℚ) * 44100 / 1000⌋) :=
  (total_samples_eq_floor [⟨[], [⟨5, 440, 100⟩, ⟨7, 220, 30⟩], [5, 112]⟩]
    (by simp [computeStartTimes, startTimesLoop]) (by simp)).2 (by simp [endTimes])

/-! ## The render pass -/

theorem mixSample_bounds (v c : Int) : -32768 ≤ mixSample v c ∧ mixSample v c ≤ 32767 := by
  simp only [mixSample]
  omega

theorem inRange_set (buffer : List Int) (k : Nat) (x : Int) (h : InRange buffer)
    (hx : -32768 ≤ x ∧ x ≤ 32767) : InRange (buffer.set k x) := by
  intro y hy
  rcases List.mem_or_eq_of_mem_set hy with h1 | h1
  · exact h y h1
  · exact h1 ▸ hx

theorem sampleLoop_inRange (c : Nat → Int) (start n s : Nat) (buffer : List Int)
    (h : InRange buffer) : InRange (sampleLoop c start n s buffer) := by
  induction n generalizing s buffer with
  | zero => exact h
  | succ n ih =>
    simp only [sampleLoop]
    split
    · exact h
    · exact ih _ _ (inRange_set _ _ _ h (mixSample_bounds _ _))

theorem renderTrackLoop_inRange (contrib : ℚ → Nat → Int) (track : Track) (n i : Nat)
    (buffer : List Int) (h : InRange buffer) :
    InRange (renderTrackLoop contrib track n i buffer) := by
  induction n generalizing i buffer with
  | zero => exact h
  | succ n ih => exact ih _ _ (sampleLoop_inRange _ _ _ _ _ h)

theorem renderPass_inRange (contrib : ℚ → Nat → Int) (tracks : List Track)
    (buffer : List Int) (h : InRange buffer) : InRange (renderPass contrib tracks buffer) := by
  induction tracks generalizing buffer with
  | nil => exact h
  | cons t ts ih => exact ih _ (renderTrackLoop_inRange _ _ _ _ _ h)

theorem inRange_replicate (n : Nat) : InRange (List.replicate n 0) := by
  intro x hx
  rw [List.eq_of_mem_replicate hx]
  omega

/-- C8: the zero-initialised buffer holds values of `[-32768, 32767]`, every individual
update of a sample of the render pass keeps all samples in that range, and so does the
final buffer of every score, for every sine contribution. -/
theorem renderBuffer_inRange (contrib : ℚ → Nat → Int) (tracks : List Track) :
    InRange (List.replicate (total_samples tracks) 0) ∧
    (∀ (buffer : List Int) (k : Nat) (c : Int), InRange buffer →
      InRange (buffer.set k (mixSample (buffer.getD k 0) c))) ∧
    InRange (renderBuffer contrib tracks) :=
  ⟨inRange_replicate _,
   fun buffer k _ h => inRange_set buffer k _ h (mixSample_bounds _ _),
   renderPass_inRange _ _ _ (inRange_replicate _)⟩

theorem renderBuffer_inRange_witness :
    InRange ([32767, 0].set 0 (mixSample (([32767, 0] : List Int).getD 0 0) 1)) :=
  (renderBuffer_inRange (fun _ _ => 0) []).2.1 [32767, 0] 0 1 (by simp [InRange])

/-- C4: the update of a sample does not clip.  With the sample at `32765` and a
contribution of `6553` the sum `39318` is stored as `-26218`; `32767 + 1` is stored as
`-32768` and `-32768 - 1` as `32767`, where the clamped sums are `32767`, `32767` and
`-32768`. -/
theorem mixSample_wraps :
    mixSample 32765 6553 = -26218 ∧ mixSample 32767 1 = -32768 ∧
    mixSample (-32768) (-1) = 32767 := by
  decide

theorem sampleLoop_length (c : Nat → Int) (start n s : Nat) (buffer : List Int) :
    (sampleLoop c start n s buffer).length = buffer.length := by
  induction n generalizing s buffer with
  | zero => rfl
  | succ n ih =>
    simp only [sampleLoop]
    split
    · rfl
    · rw [ih, List.length_set]

theorem sampleLoop_getD (c : Nat → Int) (start n s : Nat) (buffer : List Int) (k : Nat) :
    (sampleLoop c start n s buffer).getD k 0
      = if start + s ≤ k ∧ k < start + s + n ∧ k < buffer.length
        then mixSample (buffer.getD k 0) (c (k - start)) else buffer.getD k 0 := by
  induction n generalizing s buffer with
  | zero => rw [if_neg (by omega)]; rfl
  | succ n ih =>
    simp only [sampleLoop]
    split
    · rw [if_neg (by omega)]
    · rename_i hlen
      rw [ih, List.length_set]
      by_cases hk : k = start + s
      · subst hk
        rw [if_neg (by omega), if_pos (by omega)]
        have hlt : start + s < buffer.length := by omega
        simp [List.getD_eq_getElem?_getD, List.getElem?_set, hlt]
      · have hset : (buffer.set (start + s) (mixSample (buffer.getD (start + s) 0) (c s))).getD k 0
            = buffer.getD k 0 := by
          simp [List.getD_eq_getElem?_getD, List.getElem?_set, Ne.symm hk]
        rw [hset]
        by_cases hc : start + s ≤ k ∧ k < start + s + (n + 1) ∧ k < buffer.length
        · rw [if_pos hc, if_pos (by omega)]
        · rw [if_neg hc, if_neg (by omega)]

theorem mixSample_small (v c : Int) (hv : -6553 ≤ v ∧ v ≤ 6553) (hc : -6553 ≤ c ∧ c ≤ 6553) :
    mixSample v c = v + c := by
  simp only [mixSample, toShort]
  omega

/-- C9: for two tracks that each hold the single note `(0, f, 50)`, with any names and
frequencies and any sine contribution bounded by `6553`, the buffer has `2205` samples,
each note is rendered from sample `0` over `2205` samples, and every sample `k < 2205` of
the output is the clamped sum of the two contributions at offset `k`. -/
theorem overlap_two_tracks (contrib : ℚ → Nat → Int)
    (hb : ∀ f s, -6553 ≤ contrib f s ∧ contrib f s ≤ 6553)
    (name1 name2 : Str) (f1 f2 : ℚ) (old1 old2 : List Int) :
    total_samples [computeStartTimes ⟨name1, [⟨0, f1, 50⟩], old1⟩,
      computeStartTimes ⟨name2, [⟨0, f2, 50⟩], old2⟩] = 2205 ∧
    (renderBuffer contrib [computeStartTimes ⟨name1, [⟨0, f1, 50⟩], old1⟩,
      computeStartTimes ⟨name2, [⟨0, f2, 50⟩], old2⟩]).length = 2205 ∧
    (∀ buffer, renderNote contrib (computeStartTimes ⟨name1, [⟨0, f1, 50⟩], old1⟩) 0 buffer
      = sampleLoop (contrib f1) 0 2205 0 buffer) ∧
    (∀ buffer, renderNote contrib (computeStartTimes ⟨name2, [⟨0, f2, 50⟩], old2⟩) 0 buffer
      = sampleLoop (contrib f2) 0 2205 0 buffer) ∧
    (∀ k, k < 2205 →
      (renderBuffer contrib [computeStartTimes ⟨name1, [⟨0, f1, 50⟩], old1⟩,
        computeStartTimes ⟨name2, [⟨0, f2, 50⟩], old2⟩]).getD k 0
        = max (-32768) (min 32767 (contrib f1 k + contrib f2 k))) := by
  have ht : total_samples [computeStartTimes ⟨name1, [⟨0, f1, 50⟩], old1⟩,
      computeStartTimes ⟨name2, [⟨0, f2, 50⟩], old2⟩] = 2205 := by
    simp only [total_samples, maxEndTime, maxEndLoop, computeStartTimes, startTimesLoop,
      sample_rate, List.foldl_cons, List.foldl_nil, List.length_cons, List.length_nil,
      List.getD_cons_zero]
    decide
  have hd : toSizeT (wrapInt (50 * sample_rate)) = 2205 := by decide
  have hs : toSizeT (0 * sample_rate) = 0 := by decide
  have hn1 : ∀ buffer, renderNote contrib (computeStartTimes ⟨name1, [⟨0, f1, 50⟩], old1⟩) 0
      buffer = sampleLoop (contrib f1) 0 2205 0 buffer := by
    intro buffer
    simp only [renderNote, computeStartTimes, startTimesLoop, List.getD_cons_zero, hd, hs,
      List.length_cons, List.length_nil]
  have hn2 : ∀ buffer, renderNote contrib (computeStartTimes ⟨name2, [⟨0, f2, 50⟩], old2⟩) 0
      buffer = sampleLoop (contrib f2) 0 2205 0 buffer := by
    intro buffer
    simp only [renderNote, computeStartTimes, startTimesLoop, List.getD_cons_zero, hd, hs,
      List.length_cons, List.length_nil]
  have hp : ∀ buffer, renderPass contrib [computeStartTimes ⟨name1, [⟨0, f1, 50⟩], old1⟩,
      computeStartTimes ⟨name2, [⟨0, f2, 50⟩], old2⟩] buffer
      = sampleLoop (contrib f2) 0 2205 0 (sampleLoop (contrib f1) 0 2205 0 buffer) := by
    intro buffer
    simp only [renderPass, List.foldl_cons, List.foldl_nil, computeStartTimes_notes,
      List.length_cons, List.length_nil, renderTrackLoop, hn1, hn2]
  have hr : renderBuffer contrib [computeStartTimes ⟨name1, [⟨0, f1, 50⟩], old1⟩,
      computeStartTimes ⟨name2, [⟨0, f2, 50⟩], old2⟩]
      = sampleLoop (contrib f2) 0 2205 0
          (sampleLoop (contrib f1) 0 2205 0 (List.replicate 2205 0)) := by
    rw [renderBuffer, ht, hp]
  refine ⟨ht, ?_, hn1, hn2, fun k hk => ?_⟩
  · rw [hr, sampleLoop_length, sampleLoop_length, List.length_replicate]
  · rw [hr, sampleLoop_getD, sampleLoop_getD]
    rw [sampleLoop_length, List.length_replicate, if_pos (by omega), if_pos (by omega)]
    have h0 : (List.replicate 2205 (0 : Int)).getD k 0 = 0 := by
      rw [List.getD_eq_getElem _ _ (by rw [List.length_replicate]; exact hk), List.getElem_replicate]
    rw [h0, mixSample_small 0 _ (by omega) (hb f1 _)]
    rw [Nat.sub_zero, zero_add]
    have h1 := hb f1 k
    have h2 := hb f2 k
    simp only [mixSample, toShort]
    omega

theorem overlap_two_tracks_witness :
    (renderBuffer (fun _ s => if s % 2 = 0 then 0 else 6553)
      [computeStartTimes ⟨[], [⟨0, 440, 50⟩], []⟩,
        computeStartTimes ⟨[], [⟨0, 660, 50⟩], []⟩]).getD 1 0
      = max (-32768) (min 32767
          ((fun (_ : ℚ) (s : Nat) => if s % 2 = 0 then (0 : Int) else 6553) 440 1
            + (fun (_ : ℚ) (s : Nat) => if s % 2 = 0 then (0 : Int) else 6553) 660 1)) :=
  (overlap_two_tracks (fun _ s => if s % 2 = 0 then 0 else 6553)
    (fun _ s => by dsimp only; split <;> omega) [] [] 440 660 [] []).2.2.2.2 1 (by omega)

/-! ## `trim` -/

theorem find_last_cons_some (c : Char) (cs : Str) (i : Nat) (h : find_last_not_of cs = some i) :
    find_last_not_of (c :: cs) = some (i + 1) := by
  simp only [find_last_not_of, h]

theorem find_last_cons_none (c : Char) (cs : Str) (h : find_last_not_of cs = none) :
    find_last_not_of (c :: cs) = if isBlank c = true then none else some 0 := by
  simp only [find_last_not_of, h]

theorem find_last_not_of_lt (s : Str) (j : Nat) (h : find_last_not_of s = some j) :
    j < s.length := by
  induction s generalizing j with
  | nil => simp [find_last_not_of] at h
  | cons c cs ih =>
    cases hl : find_last_not_of cs with
    | some i =>
      rw [find_last_cons_some c cs i hl] at h
      simp only [Option.some.injEq] at h
      have := ih i hl
      simp only [List.length_cons]
      omega
    | none =>
      rw [find_last_cons_none c cs hl] at h
      split at h
      · simp at h
      · simp only [Option.some.injEq] at h
        simp only [List.length_cons]
        omega

theorem rstrip_eq_take (s : Str) :
    rstrip s = match find_last_not_of s with
      | some j => s.take (j + 1)
      | none => [] := by
  induction s with
  | nil => rfl
  | cons c cs ih =>
    cases hl : find_last_not_of cs with
    | some i =>
      rw [hl] at ih
      have hlt := find_last_not_of_lt cs i hl
      have hne : rstrip cs ≠ [] := by
        rw [ih]
        intro h0
        have := congrArg List.length h0
        simp only [List.length_take, List.length_nil] at this
        omega
      rw [find_last_cons_some c cs i hl]
      simp only [rstrip]
      rw [if_neg (fun h => hne h.1), ih]
      rfl
    | none =>
      rw [hl] at ih
      rw [find_last_cons_none c cs hl]
      simp only [rstrip, ih, true_and]
      by_cases hb : isBlank c = true <;> simp [hb]

theorem find_first_some_last (s : Str) (i : Nat) (h : find_first_not_of s = some i) :
    ∃ j, find_last_not_of s = some j ∧ i ≤ j := by
  induction s generalizing i with
  | nil => simp [find_first_not_of] at h
  | cons c cs ih =>
    simp only [find_first_not_of] at h
    by_cases hb : isBlank c = true
    · rw [if_pos hb] at h
      cases hf : find_first_not_of cs with
      | none => rw [hf] at h; simp at h
      | some i0 =>
        rw [hf] at h
        simp only [Option.map_some', Option.some.injEq] at h
        obtain ⟨j, hj, hij⟩ := ih i0 hf
        exact ⟨j + 1, find_last_cons_some c cs j hj, by omega⟩
    · rw [if_neg hb] at h
      simp only [Option.some.injEq] at h
      subst h
      cases hl : find_last_not_of cs with
      | some j => exact ⟨j + 1, find_last_cons_some c cs j hl, by omega⟩
      | none => exact ⟨0, by rw [find_last_cons_none c cs hl, if_neg hb], le_refl _⟩

theorem trim_nil : trim [] = [] := rfl

theorem trim_cons_blank (c : Char) (s : Str) (hb : isBlank c = true) :
    trim (c :: s) = trim s := by
  simp only [trim, find_first_not_of, if_pos hb]
  cases hf : find_first_not_of s with
  | none => rfl
  | some i =>
    obtain ⟨j, hj, hij⟩ := find_first_some_last s i hf
    rw [find_last_cons_some c s j hj, hj]
    simp only [Option.map_some', Option.getD_some, substr, List.drop_succ_cons]
    congr 1
    omega

theorem trim_cons_nonblank (c : Char) (s : Str) (hb : ¬ isBlank c = true) :
    trim (c :: s) = c :: rstrip s := by
  simp only [trim, find_first_not_of, if_neg hb, rstrip_eq_take]
  cases hl : find_last_not_of s with
  | some j => rw [find_last_cons_some c s j hl]; simp [substr]
  | none => rw [find_last_cons_none c s hl, if_neg hb]; simp [substr]

theorem rstrip_append_blank (s : Str) (c : Char) (hb : isBlank c = true) :
    rstrip (s ++ [c]) = rstrip s := by
  induction s with
  | nil => simp [rstrip, hb]
  | cons x xs ih =>
    rw [List.cons_append]
    simp only [rstrip, ih]

theorem rstrip_append_nonblank (s : Str) (c : Char) (hb : ¬ isBlank c = true) :
    rstrip (s ++ [c]) = s ++ [c] := by
  induction s with
  | nil => simp [rstrip, hb]
  | cons x xs ih =>
    rw [List.cons_append]
    simp only [rstrip, ih]
    simp

theorem trim_append_blank (s : Str) (c : Char) (hb : isBlank c = true) :
    trim (s ++ [c]) = trim s := by
  induction s with
  | nil => simp [trim, find_first_not_of, hb]
  | cons x xs ih =>
    by_cases hx : isBlank x = true
    · rw [List.cons_append, trim_cons_blank _ _ hx, trim_cons_blank _ _ hx, ih]
    · rw [List.cons_append, trim_cons_nonblank _ _ hx, trim_cons_nonblank _ _ hx,
        rstrip_append_blank _ _ hb]

/-- A string that starts and ends with a character other than space and tab is its own
trimmed form. -/
theorem trim_eq_self (a : Char) (s : Str) (b : Char) (ha : ¬ isBlank a = true)
    (hb : ¬ isBlank b = true) : trim (a :: (s ++ [b])) = a :: (s ++ [b]) := by
  rw [trim_cons_nonblank _ _ ha, rstrip_append_nonblank _ _ hb]

theorem trim_singleton (a : Char) (ha : ¬ isBlank a = true) : trim [a] = [a] := by
  rw [trim_cons_nonblank _ _ ha]; rfl

/-! ## Numerals and stream extraction -/

theorem takeWhile_append_all {p : Char → Bool} (a r : Str) (h : ∀ c ∈ a, p c = true) :
    (a ++ r).takeWhile p = a ++ r.takeWhile p := by
  induction a with
  | nil => rfl
  | cons x xs ih =>
    have hx : p x = true := h x (List.mem_cons_self _ _)
    simp only [List.cons_append, List.takeWhile_cons, hx, if_true]
    rw [ih (fun c hc => h c (List.mem_cons_of_mem _ hc))]

theorem dropWhile_append_all {p : Char → Bool} (a r : Str) (h : ∀ c ∈ a, p c = true) :
    (a ++ r).dropWhile p = r.dropWhile p := by
  induction a with
  | nil => rfl
  | cons x xs ih =>
    have hx : p x = true := h x (List.mem_cons_self _ _)
    simp only [List.cons_append, List.dropWhile_cons, hx, if_true]
    rw [ih (fun c hc => h c (List.mem_cons_of_mem _ hc))]

theorem takeWhile_stops {p : Char → Bool} (r : Str) (h : StopsAt p r) : r.takeWhile p = [] := by
  cases r with
  | nil => rfl
  | cons x xs => simp [List.takeWhile_cons, h x rfl]

theorem dropWhile_stops {p : Char → Bool} (r : Str) (h : StopsAt p r) : r.dropWhile p = r := by
  cases r with
  | nil => rfl
  | cons x xs => simp [List.dropWhile_cons, h x rfl]

theorem digitChar_spec : ∀ d, d < 10 → isDigit (digitChar d) = true ∧ digitVal (digitChar d) = d := by
  decide

theorem isDigit_ne (c x : Char) (hc : isDigit c = true) (hx : isDigit x = false) : c ≠ x := by
  rintro rfl
  rw [hc] at hx
  exact Bool.noConfusion hx

theorem isDigit_not_space (c : Char) (hc : isDigit c = true) : isSpace c = false := by
  have h1 := isDigit_ne c ' ' hc (by decide)
  have h2 := isDigit_ne c '\t' hc (by decide)
  have h3 := isDigit_ne c '\n' hc (by decide)
  have h4 := isDigit_ne c '\x0b' hc (by decide)
  have h5 := isDigit_ne c '\x0c' hc (by decide)
  have h6 := isDigit_ne c '\r' hc (by decide)
  simp [isSpace, h1, h2, h3, h4, h5, h6]

theorem showNat_digits (n : Nat) : ∀ c ∈ showNat n, isDigit c = true := by
  intro c hc
  unfold showNat at hc
  split at hc
  · simp only [List.mem_singleton] at hc
    subst hc
    decide
  · simp only [List.mem_map, List.mem_reverse] at hc
    obtain ⟨d, hd, rfl⟩ := hc
    exact (digitChar_spec d (Nat.digits_lt_base (by norm_num) hd)).1

theorem showNat_ne_nil (n : Nat) : showNat n ≠ [] := by
  unfold showNat
  split
  · simp
  · rename_i h
    simp only [ne_eq, List.map_eq_nil_iff, List.reverse_eq_nil_iff]
    exact Nat.digits_ne_nil_iff_ne_zero.2 h

theorem digitsValue_map_reverse (l : List Nat) (h : ∀ d ∈ l, d < 10) :
    digitsValue (l.reverse.map digitChar) = Nat.ofDigits 10 l := by
  unfold digitsValue
  rw [List.foldl_map, List.foldl_reverse]
  induction l with
  | nil => rfl
  | cons d ds ih =>
    simp only [List.foldr_cons, Nat.ofDigits_cons]
    rw [ih (fun x hx => h x (List.mem_cons_of_mem _ hx)),
      (digitChar_spec d (h d (List.mem_cons_self _ _))).2]
    show Nat.ofDigits 10 ds * 10 + d = d + 10 * Nat.ofDigits 10 ds
    ring

theorem digitsValue_showNat (n : Nat) : digitsValue (showNat n) = n := by
  unfold showNat
  split
  · rename_i h; subst h; rfl
  · rw [digitsValue_map_reverse _ (fun d hd => Nat.digits_lt_base (by norm_num) hd),
      Nat.ofDigits_digits]

theorem readSign_cons (c : Char) (cs : Str) :
    readSign (c :: cs)
      = if c = '-' then (true, cs) else if c = '+' then (false, cs) else (false, c :: cs) := by
  unfold readSign
  split <;> simp_all

theorem readSign_digit (s : Str) (h : ∀ c, s.head? = some c → isDigit c = true) :
    readSign s = (false, s) := by
  cases s with
  | nil => rfl
  | cons c cs =>
    have hc := h c rfl
    rw [readSign_cons, if_neg (by rintro rfl; exact absurd hc (by decide)),
      if_neg (by rintro rfl; exact absurd hc (by decide))]

theorem showNat_head (n : Nat) (r : Str) :
    ∀ c, (showNat n ++ r).head? = some c → isDigit c = true := by
  intro c hc
  cases hs : showNat n with
  | nil => exact absurd hs (showNat_ne_nil n)
  | cons x xs =>
    rw [hs] at hc
    simp only [List.cons_append, List.head?_cons, Option.some.injEq] at hc
    subst hc
    exact showNat_digits n x (by rw [hs]; exact List.mem_cons_self _ _)

/-- Reading an optional sign and a run of digits from the numeral of `z`. -/
theorem readSign_showInt (z : Int) (r : Str) (hr : StopsAt isDigit r) :
    (applySign (readSign (showInt z ++ r)).1
        (digitsValue ((readSign (showInt z ++ r)).2.takeWhile isDigit)) = z) ∧
    (readSign (showInt z ++ r)).2.takeWhile isDigit ≠ [] ∧
    (readSign (showInt z ++ r)).2.dropWhile isDigit = r := by
  have key : ∀ n : Nat, (showNat n ++ r).takeWhile isDigit = showNat n ∧
      (showNat n ++ r).dropWhile isDigit = r := fun n =>
    ⟨by rw [takeWhile_append_all _ _ (showNat_digits n), takeWhile_stops r hr, List.append_nil],
     by rw [dropWhile_append_all _ _ (showNat_digits n), dropWhile_stops r hr]⟩
  unfold showInt
  split
  · rename_i hneg
    rw [List.cons_append, readSign_cons, if_pos rfl]
    simp only [(key _).1, (key _).2, digitsValue_showNat, applySign, if_true]
    refine ⟨by omega, showNat_ne_nil _, trivial⟩
  · rename_i hpos
    rw [readSign_digit _ (showNat_head _ r)]
    simp only [(key _).1, (key _).2, digitsValue_showNat, applySign]
    refine ⟨by simp; omega, showNat_ne_nil _, trivial⟩

theorem showInt_head_not_space (z : Int) (r : Str) : StopsAt isSpace (showInt z ++ r) := by
  intro c hc
  unfold showInt at hc
  split at hc
  · simp only [List.cons_append, List.head?_cons, Option.some.injEq] at hc
    subst hc
    decide
  · exact isDigit_not_space c (showNat_head _ r c hc)

theorem readInt_showInt (pre : Str) (z : Int) (r : Str) (hpre : ∀ c ∈ pre, isSpace c = true)
    (hz : INT_MIN ≤ z ∧ z ≤ INT_MAX) (hr : StopsAt isDigit r) :
    readInt (pre ++ (showInt z ++ r)) = some (z, r) := by
  obtain ⟨h1, h2, h3⟩ := readSign_showInt z r hr
  unfold readInt
  simp only [dropWhile_append_all _ _ hpre, dropWhile_stops _ (showInt_head_not_space z r)]
  rw [if_neg h2]
  simp only [h1, h3]
  rw [if_neg (by omega)]

theorem readFraction_cons (c : Char) (cs : Str) :
    readFraction (c :: cs)
      = if c = '.' then (cs.takeWhile isDigit, cs.dropWhile isDigit) else ([], c :: cs) := by
  unfold readFraction
  split <;> simp_all

theorem readDouble_show (pre : Str) (m x : Int) (r : Str) (hpre : ∀ c ∈ pre, isSpace c = true)
    (hv : |(m : ℚ) * 10 ^ x| < doubleOverflow) (hr : StopsAt isDigit r) :
    readDouble (pre ++ (showInt m ++ ('e' :: (showInt x ++ r)))) = some ((m : ℚ) * 10 ^ x, r) := by
  have he : StopsAt isDigit ('e' :: (showInt x ++ r)) := by
    intro c hc
    simp only [List.head?_cons, Option.some.injEq] at hc
    subst hc
    decide
  obtain ⟨h1, h2, h3⟩ := readSign_showInt m _ he
  obtain ⟨g1, g2, g3⟩ := readSign_showInt x r hr
  unfold readDouble
  simp only [dropWhile_append_all _ _ hpre, dropWhile_stops _ (showInt_head_not_space m _)]
  simp only [h3, readFraction_cons, show ('e' ≠ '.') from by decide, if_false, List.append_nil]
  rw [if_neg (fun h => h2 h.1)]
  simp only [readExponent, true_or, if_true]
  rw [if_neg g2]
  simp only [h1, g1, g3, List.length_nil, Nat.cast_zero, sub_zero]
  rw [if_neg (not_le.2 hv)]

/-! ## Parsing a well-formed block -/

theorem showInt_chars (z : Int) : ∀ c ∈ showInt z, c = '-' ∨ isDigit c = true := by
  intro c hc
  unfold showInt at hc
  split at hc
  · rcases List.mem_cons.1 hc with h | h
    · exact Or.inl h
    · exact Or.inr (showNat_digits _ c h)
  · exact Or.inr (showNat_digits _ c hc)

theorem showInt_not_mem (z : Int) (x : Char) (h1 : x ≠ '-') (h2 : isDigit x = false) :
    x ∉ showInt z := by
  intro hx
  rcases showInt_chars z x hx with h | h
  · exact h1 h
  · rw [h] at h2; exact Bool.noConfusion h2

theorem replaceCommas_showInt (z : Int) : replaceCommas (showInt z) = showInt z := by
  unfold replaceCommas
  conv_rhs => rw [← List.map_id (showInt z)]
  apply List.map_congr_left
  intro c hc
  have : c ≠ ',' := by
    rintro rfl
    exact showInt_not_mem z ',' (by decide) (by decide) hc
  simp [this]

theorem find_cons (x : Char) (xs : Str) (c : Char) :
    find (x :: xs) c = if x = c then some 0 else (find xs c).map (· + 1) := rfl

theorem find_append_cons (a : Str) (c : Char) (r : Str) (h : c ∉ a) :
    find (a ++ c :: r) c = some a.length := by
  induction a with
  | nil => simp [find]
  | cons x xs ih =>
    have hx : x ≠ c := fun e => h (e ▸ List.mem_cons_self _ _)
    rw [List.cons_append, find_cons, if_neg hx, ih (fun hc => h (List.mem_cons_of_mem _ hc))]
    rfl

theorem find_eq_none (s : Str) (c : Char) (h : c ∉ s) : find s c = none := by
  induction s with
  | nil => rfl
  | cons x xs ih =>
    have hx : x ≠ c := fun e => h (e ▸ List.mem_cons_self _ _)
    rw [find_cons, if_neg hx, ih (fun hc => h (List.mem_cons_of_mem _ hc))]
    rfl

theorem line_eq_content (w : NoteText) : w.line = '[' :: (w.content ++ [']']) := by
  simp [NoteText.line, NoteText.content]

theorem freqText_not_mem (w : NoteText) (x : Char) (h1 : x ≠ '-') (h2 : isDigit x = false)
    (h5 : x ≠ 'e') : x ∉ w.freqText := by
  have hs := fun z => showInt_not_mem z x h1 h2
  unfold NoteText.freqText
  split <;> simp [hs, h5]

theorem content_not_mem (w : NoteText) (x : Char) (h1 : x ≠ '-') (h2 : isDigit x = false)
    (h3 : x ≠ ',') (h4 : x ≠ ' ') (h5 : x ≠ 'e') : x ∉ w.content := by
  have hs := fun z => showInt_not_mem z x h1 h2
  have hf := freqText_not_mem w x h1 h2 h5
  simp [NoteText.content, hs, hf, h3, h4]

theorem replaceCommas_freqText (w : NoteText) : replaceCommas w.freqText = w.freqText := by
  unfold replaceCommas
  conv_rhs => rw [← List.map_id w.freqText]
  apply List.map_congr_left
  intro c hc
  have : c ≠ ',' := by
    rintro rfl
    exact freqText_not_mem w ',' (by decide) (by decide) (by decide) hc
  simp [this]

/-- Reading the numeral of a frequency that is followed by a space. -/
theorem readDouble_freqText (pre : Str) (w : NoteText) (r : Str)
    (hpre : ∀ c ∈ pre, isSpace c = true) (hv : |w.frequency| < doubleOverflow) :
    readDouble (pre ++ (w.freqText ++ (' ' :: r))) = some (w.frequency, ' ' :: r) := by
  have hsp : StopsAt isDigit (' ' :: r) := by
    intro c hc
    simp only [List.head?_cons, Option.some.injEq] at hc
    subst hc
    decide
  unfold NoteText.frequency at hv ⊢
  unfold NoteText.freqText
  cases hx : w.exponent with
  | some x =>
    rw [hx] at hv
    simp only [Option.getD_some] at hv ⊢
    rw [List.append_assoc, List.cons_append]
    exact readDouble_show pre w.mantissa x (' ' :: r) hpre hv hsp
  | none =>
    rw [hx] at hv
    simp only [Option.getD_none] at hv ⊢
    obtain ⟨h1, h2, h3⟩ := readSign_showInt w.mantissa (' ' :: r) hsp
    unfold readDouble
    simp only [dropWhile_append_all _ _ hpre,
      dropWhile_stops _ (showInt_head_not_space w.mantissa _)]
    simp only [h3, readFraction_cons, show (' ' ≠ '.') from by decide, if_false,
      List.append_nil]
    rw [if_neg (fun h => h2 h.1)]
    simp only [readExponent, show ¬ ((' ' : Char) = 'e' ∨ (' ' : Char) = 'E') from by decide,
      if_false, h1, List.length_nil, Nat.cast_zero, sub_zero]
    rw [if_neg (not_le.2 hv)]

theorem noteStr_line (w : NoteText) : noteStr w.line = w.content := by
  have hf : find w.line ']' = some (w.content.length + 1) := by
    rw [line_eq_content]
    have := find_append_cons ('[' :: w.content) ']' []
      (by
        simp only [List.mem_cons, not_or]
        exact ⟨by decide, content_not_mem w ']' (by decide) (by decide) (by decide)
          (by decide) (by decide)⟩)
    simpa using this
  unfold noteStr
  rw [hf]
  simp [substr, line_eq_content]

/-- A binary64 number is below the magnitude at which the conversion overflows. -/
theorem isBinary64_lt_overflow (q : ℚ) (h : IsBinary64 q) : |q| < doubleOverflow := by
  obtain ⟨m, e, hm, _, he, rfl⟩ := h
  have h2 : (0 : ℚ) < 2 ^ e := zpow_pos (by norm_num) e
  have hle : (2 : ℚ) ^ e ≤ 2 ^ (971 : Int) := zpow_le_zpow_right₀ (by norm_num) he
  have hm' : |(m : ℚ)| ≤ 2 ^ 53 - 1 := by
    have : |m| ≤ 2 ^ 53 - 1 := by omega
    have h3 : ((|m| : Int) : ℚ) ≤ ((2 ^ 53 - 1 : Int) : ℚ) := by exact_mod_cast this
    rw [Int.cast_abs] at h3
    refine le_trans h3 ?_
    norm_num
  rw [abs_mul, abs_of_pos h2]
  calc |(m : ℚ)| * 2 ^ e ≤ (2 ^ 53 - 1) * 2 ^ (971 : Int) :=
        mul_le_mul hm' hle (le_of_lt h2) (by norm_num)
    _ < doubleOverflow := by
        unfold doubleOverflow
        norm_num

theorem extractNote_content (w : NoteText) (hv : w.Valid) :
    extractNote (replaceCommas w.content) = some w.note := by
  obtain ⟨hd, hu, hf⟩ := hv
  have hsp : ∀ r : Str, StopsAt isDigit (' ' :: r) := by
    intro r c hc
    simp only [List.head?_cons, Option.some.injEq] at hc
    subst hc
    decide
  have hpre : ∀ c ∈ [' ', ' '], isSpace c = true := by decide
  have hrep : replaceCommas w.content
      = showInt w.delta ++ (' ' :: ' ' :: (w.freqText ++ (' ' :: ' ' :: showInt w.duration))) := by
    have h := replaceCommas_showInt
    have h' := replaceCommas_freqText w
    simp only [replaceCommas] at h h'
    simp [replaceCommas, NoteText.content, h, h']
  rw [hrep]
  unfold extractNote
  have e1 := readInt_showInt [] w.delta
    (' ' :: ' ' :: (w.freqText ++ (' ' :: ' ' :: showInt w.duration))) (by simp) hd (hsp _)
  rw [List.nil_append] at e1
  rw [e1]
  have e2 := readDouble_freqText [' ', ' '] w (' ' :: showInt w.duration) hpre
    (isBinary64_lt_overflow _ hf)
  simp only [List.cons_append, List.nil_append] at e2
  simp only [e2]
  have e3 := readInt_showInt [' ', ' '] w.duration [] hpre hu (by intro c hc; simp at hc)
  simp only [List.cons_append, List.nil_append, List.append_nil] at e3
  simp only [e3]
  rfl

theorem parseLine_noteLine (st : ParseState) (w : NoteText) (hv : w.Valid)
    (hin : st.in_track = true) :
    parseLine st w.line
      = { st with current_track :=
            { st.current_track with notes := st.current_track.notes ++ [w.note] } } := by
  have htrim : trim w.line = w.line := by
    rw [line_eq_content]
    exact trim_eq_self _ _ _ (by decide) (by decide)
  have hclose : '}' ∉ w.line := by
    rw [line_eq_content]
    simp only [List.mem_cons, List.mem_append, List.mem_singleton, not_or]
    exact ⟨by decide, content_not_mem w '}' (by decide) (by decide) (by decide)
          (by decide) (by decide), by decide, by simp⟩
  unfold parseLine
  simp only [htrim]
  rw [if_neg (by rw [line_eq_content]; simp), if_neg (by simp [hin])]
  unfold parseInside
  rw [if_neg hclose, if_neg (by rw [line_eq_content]; simp)]
  simp only [noteStr_line, extractNote_content w hv]

theorem parseLine_headerLine (st : ParseState) (name : Str) (hname : '{' ∉ name)
    (hout : st.in_track = false) :
    parseLine st (headerLine name)
      = { st with
          current_track := { st.current_track with name := trim name, notes := [] }
          in_track := true } := by
  have hshape : headerLine name = 't' :: (('r' :: 'a' :: 'c' :: 'k' :: ' ' :: (name ++ [' ']))
      ++ ['{']) := by
    simp [headerLine]
  have htrim : trim (headerLine name) = headerLine name := by
    rw [hshape]
    exact trim_eq_self _ _ _ (by decide) (by decide)
  have hfind : find (headerLine name) '{' = some (name.length + 7) := by
    have := find_append_cons ("track ".toList ++ name ++ [' ']) '{' []
      (by
        simp only [List.mem_append, List.mem_singleton, not_or]
        exact ⟨⟨by decide, hname⟩, by decide⟩)
    simpa [headerLine] using this
  have hsub : substr (headerLine name) 5 (name.length + 7 - 5) = ' ' :: (name ++ [' ']) := by
    have h2 : name.length + 7 - 5 = (' ' :: (name ++ [' '])).length := by
      simp only [List.length_cons, List.length_append, List.length_nil]
      omega
    rw [h2]
    have hdrop : (headerLine name).drop 5 = (' ' :: (name ++ [' '])) ++ ['{'] := by
      simp [headerLine]
    rw [substr, hdrop, List.take_left']
    rfl
  have hpre : "track".toList <+: headerLine name :=
    ⟨' ' :: (name ++ [' ', '{']), by simp [headerLine]⟩
  unfold parseLine
  simp only [htrim]
  rw [if_neg (by rw [hshape]; simp), if_pos hout]
  unfold parseOutside
  rw [if_pos hpre]
  simp only [hfind, hsub]
  rw [trim_cons_blank _ _ (by decide), trim_append_blank _ _ (by decide)]

theorem parseLine_closingLine (st : ParseState) (hin : st.in_track = true)
    (hne : st.current_track.notes ≠ []) :
    parseLine st closingLine
      = { st with
          tracks := st.tracks ++ [computeStartTimes st.current_track]
          current_track := computeStartTimes st.current_track
          in_track := false } := by
  have htrim : trim closingLine = closingLine := by decide
  unfold parseLine
  simp only [htrim]
  rw [if_neg (by decide), if_neg (by simp [hin])]
  unfold parseInside
  rw [if_pos (by decide), if_pos hne]

theorem foldl_noteLines (ws : List NoteText) (st : ParseState) (hv : ∀ w ∈ ws, w.Valid)
    (hin : st.in_track = true) :
    (ws.map NoteText.line).foldl parseLine st
      = { st with current_track :=
            { st.current_track with notes := st.current_track.notes ++ ws.map NoteText.note } } := by
  induction ws generalizing st with
  | nil => simp
  | cons w ws ih =>
    rw [List.map_cons, List.foldl_cons, parseLine_noteLine st w (hv w (List.mem_cons_self _ _)) hin]
    refine (ih _ (fun w' hw' => hv w' (List.mem_cons_of_mem _ hw')) ?_).trans ?_
    · exact hin
    · simp

/-- The state after a well-formed block, read in a state outside of a track. -/
theorem foldl_blockLines (st : ParseState) (name : Str) (ws : List NoteText)
    (hname : '{' ∉ name) (hne : ws ≠ []) (hv : ∀ w ∈ ws, w.Valid) (hout : st.in_track = false) :
    (blockLines name ws).foldl parseLine st
      = { st with
          tracks := st.tracks ++ [computeStartTimes
            { st.current_track with name := trim name, notes := ws.map NoteText.note }]
          current_track := computeStartTimes
            { st.current_track with name := trim name, notes := ws.map NoteText.note }
          in_track := false } := by
  rw [blockLines, List.foldl_cons, List.foldl_append, parseLine_headerLine st name hname hout,
    foldl_noteLines ws _ hv rfl, List.foldl_cons, List.foldl_nil,
    parseLine_closingLine _ rfl (by simpa using hne)]
  simp

theorem five_pow_mul_ten_zpow (k : Nat) :
    ((5 : ℚ) ^ k) * 10 ^ (-(k : Int)) = 2 ^ (-(k : Int)) := by
  rw [zpow_neg, zpow_neg, zpow_natCast, zpow_natCast,
    show (10 : ℚ) = 2 * 5 from by norm_num, mul_pow]
  field_simp
  ring

/-- Every value of `struct Note` is denoted by a written note: a binary64 number has a
finite decimal expansion. -/
theorem note_has_text (n : Note) (hd : INT_MIN ≤ n.delta_time ∧ n.delta_time ≤ INT_MAX)
    (hu : INT_MIN ≤ n.duration ∧ n.duration ≤ INT_MAX) (hf : IsBinary64 n.frequency) :
    ∃ w : NoteText, w.Valid ∧ w.note = n := by
  obtain ⟨d, f, u⟩ := n
  obtain ⟨m, e, hm, he1, he2, hq⟩ := hf
  simp only at hd hu hq
  by_cases he : 0 ≤ e
  · have hfreq : (⟨d, m * 2 ^ e.toNat, none, u⟩ : NoteText).frequency = f := by
      rw [hq]
      simp only [NoteText.frequency, Option.getD_none, zpow_zero, mul_one]
      push_cast
      rw [← zpow_natCast, Int.toNat_of_nonneg he]
    refine ⟨⟨d, m * 2 ^ e.toNat, none, u⟩, ⟨hd, hu, ?_⟩, ?_⟩
    · rw [hfreq]; exact ⟨m, e, hm, he1, he2, hq⟩
    · simp only [NoteText.note, hfreq]
  · have hk : e = -(((-e).toNat : Nat) : Int) := by
      rw [Int.toNat_of_nonneg (by omega)]
      omega
    have hfreq : (⟨d, m * 5 ^ (-e).toNat, some (-(((-e).toNat : Nat) : Int)), u⟩ :
        NoteText).frequency = f := by
      rw [hq]
      simp only [NoteText.frequency, Option.getD_some]
      push_cast
      rw [mul_assoc, five_pow_mul_ten_zpow, ← hk]
    refine ⟨⟨d, m * 5 ^ (-e).toNat, some (-(((-e).toNat : Nat) : Int)), u⟩, ⟨hd, hu, ?_⟩, ?_⟩
    · rw [hfreq]; exact ⟨m, e, hm, he1, he2, hq⟩
    · simp only [NoteText.note, hfreq]

/-- C2: for every track name without an opening brace and every non-empty sequence of
notes (values of `struct Note`: the `int` fields fit in 32 bits and the frequency is a
finite binary64 number, written in decimal as an integer numeral or as
`<mantissa>e<exponent>`), parsing the header line `track <name> {`, one line
`[<delta>, <frequency>, <duration>]` per note and the closing line yields exactly one
track: its name is the trimmed name, its notes are those notes in input order and its
start times are the ones `computeStartTimes` computes for them; no diagnostic is
written. -/
theorem parseInput_block (name : Str) (ws : List NoteText) (hname : '{' ∉ name)
    (hne : ws ≠ []) (hv : ∀ w ∈ ws, w.Valid) :
    parseInput (blockLines name ws)
      = [computeStartTimes ⟨trim name, ws.map NoteText.note, []⟩] ∧
    (parseRun (blockLines name ws)).cerr = [] := by
  unfold parseInput parseRun
  rw [foldl_blockLines initState name ws hname hne hv rfl]
  exact ⟨rfl, rfl⟩

theorem parseInput_block_witness :
    parseInput (blockLines "lead".toList [⟨0, 440, none, 100⟩, ⟨10, 8805, some (-1), 50⟩])
      = [computeStartTimes ⟨trim "lead".toList,
          [⟨0, 440, none, 100⟩, ⟨10, 8805, some (-1), 50⟩].map NoteText.note, []⟩] ∧
    (parseRun (blockLines "lead".toList
      [⟨0, 440, none, 100⟩, ⟨10, 8805, some (-1), 50⟩])).cerr = [] :=
  parseInput_block "lead".toList [⟨0, 440, none, 100⟩, ⟨10, 8805, some (-1), 50⟩]
    (by decide) (by simp)
    (by
      intro w hw
      simp only [List.mem_cons, List.mem_singleton, List.not_mem_nil, or_false] at hw
      rcases hw with rfl | rfl
      · exact ⟨by decide, by decide,
          ⟨440, 0, by norm_num, by norm_num, by norm_num, by norm_num [NoteText.frequency]⟩⟩
      · exact ⟨by decide, by decide,
          ⟨1761, -1, by norm_num, by norm_num, by norm_num, by norm_num [NoteText.frequency]⟩⟩)

/-! ## Invariants of the parse loop -/

/-- The effect of one line on the committed tracks and on the track under construction:
nothing; a fresh block (name set to a trimmed text, notes cleared); a block closed with
at least one note (resolved and appended); or one note, extracted from a line that
starts with `[`, appended to the current track. -/
theorem parseLine_cases (st : ParseState) (raw : Str) :
    ((parseLine st raw).tracks = st.tracks ∧
      (parseLine st raw).current_track = st.current_track) ∨
    ((parseLine st raw).tracks = st.tracks ∧
      ∃ text, (parseLine st raw).current_track
        = { st.current_track with name := trim text, notes := [] }) ∨
    (st.current_track.notes ≠ [] ∧
      (parseLine st raw).tracks = st.tracks ++ [computeStartTimes st.current_track] ∧
      (parseLine st raw).current_track = computeStartTimes st.current_track) ∨
    (∃ note, (trim raw).head? = some '[' ∧
      extractNote (replaceCommas (noteStr (trim raw))) = some note ∧
      (parseLine st raw).tracks = st.tracks ∧
      (parseLine st raw).current_track
        = { st.current_track with notes := st.current_track.notes ++ [note] }) := by
  unfold parseLine
  simp only
  split
  · exact Or.inl ⟨rfl, rfl⟩
  · split
    · unfold parseOutside
      split
      · split
        · exact Or.inl ⟨rfl, rfl⟩
        · exact Or.inr (Or.inl ⟨rfl, _, rfl⟩)
      · exact Or.inl ⟨rfl, rfl⟩
    · unfold parseInside
      split
      · split
        · rename_i hne
          exact Or.inr (Or.inr (Or.inl ⟨hne, rfl, rfl⟩))
        · exact Or.inl ⟨rfl, rfl⟩
      · split
        · exact Or.inl ⟨rfl, rfl⟩
        · rename_i hhead
          split
          · exact Or.inl ⟨rfl, rfl⟩
          · rename_i note hnote
            exact Or.inr (Or.inr (Or.inr ⟨note, not_not.1 hhead, hnote, rfl, rfl⟩))

/-- An invariant of the committed tracks that every resolved non-empty track satisfies
holds after every line, and so for the parser's result. -/
theorem parseRun_tracks_invariant (P : Track → Prop)
    (hP : ∀ t : Track, t.notes ≠ [] → P (computeStartTimes t)) (lines : List Str) :
    ∀ t ∈ parseInput lines, P t := by
  have hstep : ∀ (st : ParseState) (raw : Str), (∀ t ∈ st.tracks, P t) →
      ∀ t ∈ (parseLine st raw).tracks, P t := by
    intro st raw h t ht
    rcases parseLine_cases st raw with ⟨h1, _⟩ | ⟨h1, _⟩ | ⟨hne, h1, _⟩ | ⟨_, _, _, h1, _⟩
    · exact h t (h1 ▸ ht)
    · exact h t (h1 ▸ ht)
    · rw [h1] at ht
      rcases List.mem_append.1 ht with ht | ht
      · exact h t ht
      · rw [List.mem_singleton.1 ht]; exact hP _ hne
    · exact h t (h1 ▸ ht)
  have hfold : ∀ (ls : List Str) (st : ParseState), (∀ t ∈ st.tracks, P t) →
      ∀ t ∈ (ls.foldl parseLine st).tracks, P t := by
    intro ls
    induction ls with
    | nil => intro st h; exact h
    | cons l ls ih => intro st h; exact ih _ (hstep st l h)
  exact hfold lines initState (by intro t ht; simp [initState] at ht)

/-- C6: every track of the score returned by the parser has at least one note and as
many start times as notes; and a line that closes a block holding no note leaves the
score unchanged and the parser outside of a track. -/
theorem parseInput_tracks_nonempty (lines : List Str) :
    (∀ t ∈ parseInput lines, t.notes ≠ [] ∧ t.start_times_ms.length = t.notes.length) ∧
    (∀ (st : ParseState) (raw : Str), st.in_track = true → st.current_track.notes = [] →
      '}' ∈ trim raw → (trim raw).head? ≠ some '#' →
      (parseLine st raw).tracks = st.tracks ∧ (parseLine st raw).in_track = false) := by
  refine ⟨parseRun_tracks_invariant _ (fun t hne => ?_) lines, ?_⟩
  · rw [computeStartTimes_notes]
    exact ⟨hne, computeStartTimes_length t hne⟩
  · intro st raw hin hnotes hclose hcomment
    have hne : trim raw ≠ [] := by
      intro h
      rw [h] at hclose
      simp at hclose
    unfold parseLine
    simp only
    rw [if_neg (by simp [hne, hcomment]), if_neg (by simp [hin])]
    unfold parseInside
    rw [if_pos hclose, if_neg (by simp [hnotes])]
    exact ⟨rfl, rfl⟩

theorem parseInput_tracks_nonempty_witness :
    (parseLine ⟨[], ⟨['t'], [], [7]⟩, true, []⟩ [' ', '}']).tracks = [] ∧
    (parseLine ⟨[], ⟨['t'], [], [7]⟩, true, []⟩ [' ', '}']).in_track = false :=
  (parseInput_tracks_nonempty []).2 ⟨[], ⟨['t'], [], [7]⟩, true, []⟩ [' ', '}'] rfl rfl
    (by decide) (by decide)

theorem computeStartTimes_idem (track : Track) :
    computeStartTimes (computeStartTimes track) = computeStartTimes track := by
  obtain ⟨name, notes, st⟩ := track
  cases notes <;> rfl

/-- Every track returned by the parser carries the start times that `computeStartTimes`
computes for its notes. -/
theorem parseInput_resolved (lines : List Str) :
    ∀ t ∈ parseInput lines, computeStartTimes t = t :=
  parseRun_tracks_invariant _ (fun t _ => computeStartTimes_idem t) lines

/-! ## Signs of the extracted numbers -/

theorem not_mem_dropWhile (p : Char → Bool) (x : Char) (s : Str) (h : x ∉ s) :
    x ∉ s.dropWhile p :=
  fun hx => h ((List.dropWhile_suffix p).subset hx)

theorem not_mem_substr (x : Char) (s : Str) (pos count : Nat) (h : x ∉ s) :
    x ∉ substr s pos count :=
  fun hx => h (List.mem_of_mem_drop (List.mem_of_mem_take hx))

theorem not_mem_trim (x : Char) (s : Str) (h : x ∉ s) : x ∉ trim s := by
  unfold trim
  split
  · simp
  · exact not_mem_substr x s _ _ h

theorem not_mem_noteStr (x : Char) (s : Str) (h : x ∉ s) : x ∉ noteStr s := by
  unfold noteStr
  split <;> exact not_mem_substr x s _ _ h

theorem minus_not_mem_replaceCommas (s : Str) (h : '-' ∉ s) : '-' ∉ replaceCommas s := by
  unfold replaceCommas
  intro hx
  obtain ⟨c, hc, hcx⟩ := List.mem_map.1 hx
  by_cases hcomma : c = ','
  · rw [if_pos hcomma] at hcx
    exact absurd hcx (by decide)
  · rw [if_neg hcomma] at hcx
    exact h (hcx ▸ hc)

theorem readSign_no_minus (s : Str) (h : '-' ∉ s) :
    (readSign s).1 = false ∧ '-' ∉ (readSign s).2 := by
  cases s with
  | nil => exact ⟨rfl, h⟩
  | cons c cs =>
    have hc : c ≠ '-' := fun e => h (e ▸ List.mem_cons_self _ _)
    have hcs : '-' ∉ cs := fun e => h (List.mem_cons_of_mem _ e)
    rw [readSign_cons, if_neg hc]
    split
    · exact ⟨rfl, hcs⟩
    · exact ⟨rfl, h⟩

/-- Without a minus sign in the stream, an extracted `int` is non-negative. -/
theorem readInt_nonneg (s : Str) (v : Int) (r : Str) (h : '-' ∉ s)
    (hr : readInt s = some (v, r)) : 0 ≤ v ∧ '-' ∉ r := by
  obtain ⟨h1, h2⟩ := readSign_no_minus _ (not_mem_dropWhile isSpace _ _ h)
  unfold readInt at hr
  simp only [h1, applySign, Bool.false_eq_true, if_false] at hr
  split at hr
  · exact absurd hr (by simp)
  · split at hr
    · exact absurd hr (by simp)
    · simp only [Option.some.injEq, Prod.mk.injEq] at hr
      obtain ⟨rfl, rfl⟩ := hr
      exact ⟨by simp, not_mem_dropWhile _ _ _ h2⟩

theorem readFraction_not_mem (x : Char) (s : Str) (h : x ∉ s) : x ∉ (readFraction s).2 := by
  cases s with
  | nil => exact h
  | cons c cs =>
    rw [readFraction_cons]
    split
    · exact not_mem_dropWhile _ _ _ (fun e => h (List.mem_cons_of_mem _ e))
    · exact h

theorem readExponent_no_minus (s : Str) (e : Int) (r : Str) (h : '-' ∉ s)
    (hr : readExponent s = some (e, r)) : '-' ∉ r := by
  cases s with
  | nil =>
    simp only [readExponent, Option.some.injEq, Prod.mk.injEq] at hr
    rw [← hr.2]; simp
  | cons c cs =>
    have hcs : '-' ∉ cs := fun e => h (List.mem_cons_of_mem _ e)
    simp only [readExponent] at hr
    split at hr
    · split at hr
      · exact absurd hr (by simp)
      · simp only [Option.some.injEq, Prod.mk.injEq] at hr
        rw [← hr.2]
        exact not_mem_dropWhile _ _ _ (readSign_no_minus cs hcs).2
    · simp only [Option.some.injEq, Prod.mk.injEq] at hr
      rw [← hr.2]; exact h

/-- Without a minus sign in the stream, an extracted `double` is non-negative. -/
theorem readDouble_nonneg (s : Str) (v : ℚ) (r : Str) (h : '-' ∉ s)
    (hr : readDouble s = some (v, r)) : 0 ≤ v ∧ '-' ∉ r := by
  obtain ⟨h1, h2⟩ := readSign_no_minus _ (not_mem_dropWhile isSpace _ _ h)
  unfold readDouble at hr
  simp only [h1, applySign, Bool.false_eq_true, if_false] at hr
  split at hr
  · exact absurd hr (by simp)
  · split at hr
    · exact absurd hr (by simp)
    · rename_i e rest he
      split at hr
      · exact absurd hr (by simp)
      · simp only [Option.some.injEq, Prod.mk.injEq] at hr
        obtain ⟨rfl, rfl⟩ := hr
        refine ⟨?_, readExponent_no_minus _ _ _
          (readFraction_not_mem _ _ (not_mem_dropWhile _ _ _ h2)) he⟩
        apply mul_nonneg
        · simp
        · exact zpow_nonneg (by norm_num) _

theorem extractNote_nonneg (s : Str) (note : Note) (h : '-' ∉ s)
    (hr : extractNote s = some note) :
    0 ≤ note.delta_time ∧ 0 ≤ note.duration ∧ 0 ≤ note.frequency := by
  unfold extractNote at hr
  split at hr
  · exact absurd hr (by simp)
  · rename_i delta r1 h1
    split at hr
    · exact absurd hr (by simp)
    · rename_i freq r2 h2
      split at hr
      · exact absurd hr (by simp)
      · rename_i duration r3 h3
        simp only [Option.some.injEq] at hr
        subst hr
        obtain ⟨a1, b1⟩ := readInt_nonneg _ _ _ h h1
        obtain ⟨a2, b2⟩ := readDouble_nonneg _ _ _ b1 h2
        obtain ⟨a3, _⟩ := readInt_nonneg _ _ _ b2 h3
        exact ⟨a1, a3, a2⟩

/-- A property of notes that every note extracted from the lines of the input has holds
for every note of the parser's result. -/
theorem parseRun_notes_invariant (Q : Note → Prop) (lines : List Str)
    (hQ : ∀ l ∈ lines, ∀ note, (trim l).head? = some '[' →
      extractNote (replaceCommas (noteStr (trim l))) = some note → Q note) :
    ∀ t ∈ parseInput lines, ∀ n ∈ t.notes, Q n := by
  have hfold : ∀ (ls : List Str) (st : ParseState),
      (∀ l ∈ ls, ∀ note, (trim l).head? = some '[' →
        extractNote (replaceCommas (noteStr (trim l))) = some note → Q note) →
      ((∀ t ∈ st.tracks, ∀ n ∈ t.notes, Q n) ∧ ∀ n ∈ st.current_track.notes, Q n) →
      ((∀ t ∈ (ls.foldl parseLine st).tracks, ∀ n ∈ t.notes, Q n) ∧
        ∀ n ∈ (ls.foldl parseLine st).current_track.notes, Q n) := by
    intro ls
    induction ls with
    | nil => intro st _ h; exact h
    | cons l ls ih =>
      intro st hl h
      refine ih _ (fun l' hl' => hl l' (List.mem_cons_of_mem _ hl')) ?_
      obtain ⟨ht, hc⟩ := h
      rcases parseLine_cases st l with ⟨h1, h2⟩ | ⟨h1, nm, h2⟩ | ⟨_, h1, h2⟩ |
        ⟨note, hhead, hnote, h1, h2⟩
      · rw [h1, h2]; exact ⟨ht, hc⟩
      · rw [h1, h2]; exact ⟨ht, by simp⟩
      · rw [h1, h2]
        refine ⟨fun t htm => ?_, by rw [computeStartTimes_notes]; exact hc⟩
        rcases List.mem_append.1 htm with htm | htm
        · exact ht t htm
        · rw [List.mem_singleton.1 htm, computeStartTimes_notes]; exact hc
      · rw [h1, h2]
        refine ⟨ht, fun n hn => ?_⟩
        rcases List.mem_append.1 hn with hn | hn
        · exact hc n hn
        · rw [List.mem_singleton.1 hn]
          exact hl l (List.mem_cons_self _ _) note hhead hnote
  exact (hfold lines initState hQ ⟨by simp [initState], by simp [initState]⟩).1

/-- C7, as amended: when no note line of the input (a line whose trimmed form starts with
`[`) contains a minus sign, every note of every returned track has `delta_time >= 0`,
`duration >= 0` and `frequency >= 0`. -/
theorem parseInput_notes_nonneg (lines : List Str)
    (h : ∀ l ∈ lines, (trim l).head? = some '[' → '-' ∉ l) :
    ∀ t ∈ parseInput lines, ∀ n ∈ t.notes,
      0 ≤ n.delta_time ∧ 0 ≤ n.duration ∧ 0 ≤ n.frequency :=
  parseRun_notes_invariant _ lines (fun l hl note hhead hnote =>
    extractNote_nonneg _ note
      (minus_not_mem_replaceCommas _ (not_mem_noteStr _ _ (not_mem_trim _ _ (h l hl hhead))))
      hnote)

theorem parseInput_notes_nonneg_witness :
    parseInput ["track t \x7b".toList, "[5, 440, 100]".toList, "[0, 0, 0]".toList,
        "\x7d".toList]
      = [⟨"t".toList, [⟨5, 440, 100⟩, ⟨0, 0, 0⟩], [5, 105]⟩] ∧
    (0 ≤ (⟨0, 0, 0⟩ : Note).delta_time ∧ 0 ≤ (⟨0, 0, 0⟩ : Note).duration ∧
      0 ≤ (⟨0, 0, 0⟩ : Note).frequency) :=
  have hp : parseInput ["track t \x7b".toList, "[5, 440, 100]".toList, "[0, 0, 0]".toList,
      "\x7d".toList] = [⟨"t".toList, [⟨5, 440, 100⟩, ⟨0, 0, 0⟩], [5, 105]⟩] := by decide!
  ⟨hp, parseInput_notes_nonneg
    ["track t \x7b".toList, "[5, 440, 100]".toList, "[0, 0, 0]".toList, "\x7d".toList]
    (by decide) ⟨"t".toList, [⟨5, 440, 100⟩, ⟨0, 0, 0⟩], [5, 105]⟩
    (by rw [hp]; exact List.mem_singleton.2 rfl) ⟨0, 0, 0⟩ (by simp)⟩

/-- C7, counterexample: the block `track t {` / `[-1, 0, -1]` / `}` is accepted as written,
with `delta_time = -1`, `frequency = 0` and `duration = -1`; and the block with the note
line `[0, 0, 0]`, which has no minus sign, is accepted with `frequency = 0`. -/
theorem parseInput_accepts_out_of_range :
    parseInput ["track t \x7b".toList, "[-1, 0, -1]".toList, "\x7d".toList]
      = [⟨"t".toList, [⟨-1, 0, -1⟩], [-1]⟩] ∧
    parseInput ["track t \x7b".toList, "[0, 0, 0]".toList, "\x7d".toList]
      = [⟨"t".toList, [⟨0, 0, 0⟩], [0]⟩] ∧
    ¬ (∀ t ∈ parseInput ["track t \x7b".toList, "[-1, 0, -1]".toList, "\x7d".toList],
        ∀ n ∈ t.notes, 0 ≤ n.delta_time ∧ 0 ≤ n.duration ∧ 0 < n.frequency) := by
  have h1 : parseInput ["track t \x7b".toList, "[-1, 0, -1]".toList, "\x7d".toList]
      = [⟨"t".toList, [⟨-1, 0, -1⟩], [-1]⟩] := by decide!
  refine ⟨h1, by decide!, ?_⟩
  rw [h1]
  intro h
  exact absurd (h _ (List.mem_singleton.2 rfl) ⟨-1, 0, -1⟩ (List.mem_singleton.2 rfl)).1
    (by decide)

/-! ## Concrete inputs -/

/-- C5: a note line without its closing bracket is not rejected.  In a track, the line
`[0, 440, 100` appends the note `(0, 440, 100)` and writes no diagnostic, and the block
`track t {` / `[0, 440, 100` / `}` yields a track holding that note. -/
theorem parseLine_missing_bracket :
    parseLine ⟨[], ⟨"t".toList, [], []⟩, true, []⟩ "[0, 440, 100".toList
      = ⟨[], ⟨"t".toList, [⟨0, 440, 100⟩], []⟩, true, []⟩ ∧
    parseRun ["track t \x7b".toList, "[0, 440, 100".toList, "\x7d".toList]
      = ⟨[⟨"t".toList, [⟨0, 440, 100⟩], [0]⟩], ⟨"t".toList, [⟨0, 440, 100⟩], [0]⟩, false, []⟩ := by
  decide!

theorem rstrip_eq_reverse (s : Str) : rstrip s = (s.reverse.dropWhile isBlank).reverse := by
  induction s using List.reverseRecOn with
  | nil => rfl
  | append_singleton s c ih =>
    by_cases hb : isBlank c = true
    · rw [rstrip_append_blank _ _ hb, ih, List.reverse_append, List.reverse_singleton,
        List.singleton_append, List.dropWhile_cons, if_pos hb]
    · rw [rstrip_append_nonblank _ _ hb, List.reverse_append, List.reverse_singleton,
        List.singleton_append, List.dropWhile_cons, if_neg hb, List.reverse_cons,
        List.reverse_reverse]

theorem rstrip_cons_nonblank (c : Char) (s : Str) (hb : ¬ isBlank c = true) :
    rstrip (c :: s) = c :: rstrip s := by
  simp only [rstrip]
  rw [if_neg (fun h => hb h.2)]

theorem trim_eq_rstrip_dropWhile (s : Str) : trim s = rstrip (s.dropWhile isBlank) := by
  induction s with
  | nil => rfl
  | cons c cs ih =>
    by_cases hb : isBlank c = true
    · rw [trim_cons_blank _ _ hb, ih, List.dropWhile_cons, if_pos hb]
    · rw [trim_cons_nonblank _ _ hb, List.dropWhile_cons, if_neg hb, rstrip_cons_nonblank _ _ hb]

theorem trim_eq_stripBlanks (s : Str) : trim s = stripBlanks s := by
  rw [trim_eq_rstrip_dropWhile, rstrip_eq_reverse, stripBlanks]

theorem rstrip_suffix_blank (s : Str) : ∃ b, s = rstrip s ++ b ∧ ∀ c ∈ b, isBlank c = true := by
  induction s using List.reverseRecOn with
  | nil => exact ⟨[], rfl, by simp⟩
  | append_singleton s c ih =>
    by_cases hb : isBlank c = true
    · obtain ⟨b, hs, hbl⟩ := ih
      refine ⟨b ++ [c], ?_, ?_⟩
      · rw [rstrip_append_blank _ _ hb, ← List.append_assoc, ← hs]
      · intro x hx
        rcases List.mem_append.1 hx with h | h
        · exact hbl x h
        · rw [List.mem_singleton.1 h]; exact hb
    · exact ⟨[], by rw [rstrip_append_nonblank _ _ hb, List.append_nil], by simp⟩

theorem rstrip_getLast (s : Str) : ∀ c, (rstrip s).getLast? = some c → isBlank c = false := by
  induction s using List.reverseRecOn with
  | nil => intro c hc; simp [rstrip] at hc
  | append_singleton s x ih =>
    intro c hc
    by_cases hb : isBlank x = true
    · rw [rstrip_append_blank _ _ hb] at hc
      exact ih c hc
    · rw [rstrip_append_nonblank _ _ hb] at hc
      rw [List.getLast?_append, List.getLast?_singleton] at hc
      simp only [Option.or, Option.some.injEq] at hc
      subst hc
      simpa using hb

theorem rstrip_head (s : Str) (c : Char) (hc : (rstrip s).head? = some c) :
    s.head? = some c := by
  obtain ⟨b, hs, _⟩ := rstrip_suffix_blank s
  cases hr : rstrip s with
  | nil => rw [hr] at hc; simp at hc
  | cons x xs =>
    rw [hr] at hc hs
    rw [hs]
    simpa using hc

theorem dropWhile_head (p : Char → Bool) (s : Str) (c : Char)
    (hc : (s.dropWhile p).head? = some c) : p c = false := by
  induction s with
  | nil => simp at hc
  | cons x xs ih =>
    rw [List.dropWhile_cons] at hc
    split at hc
    · exact ih hc
    · rename_i hx
      simp only [List.head?_cons, Option.some.injEq] at hc
      subst hc
      simpa using hx

theorem dropWhile_leading_blank (s : Str) :
    ∃ a, s = a ++ s.dropWhile isBlank ∧ ∀ c ∈ a, isBlank c = true :=
  ⟨s.takeWhile isBlank, (List.takeWhile_append_dropWhile _ _).symm,
    fun _ hc => List.mem_takeWhile_imp hc⟩

theorem trim_head (s : Str) (c : Char) (hc : (trim s).head? = some c) : isBlank c = false := by
  rw [trim_eq_rstrip_dropWhile] at hc
  exact dropWhile_head _ _ _ (rstrip_head _ _ hc)

theorem trim_getLast (s : Str) (c : Char) (hc : (trim s).getLast? = some c) :
    isBlank c = false := by
  rw [trim_eq_rstrip_dropWhile] at hc
  exact rstrip_getLast _ c hc

theorem trim_of_all_blank (s : Str) (h : ∀ c ∈ s, isBlank c = true) : trim s = [] := by
  induction s with
  | nil => rfl
  | cons c cs ih =>
    rw [trim_cons_blank _ _ (h c (List.mem_cons_self _ _))]
    exact ih (fun x hx => h x (List.mem_cons_of_mem _ hx))

theorem trim_decompose (s : Str) :
    ∃ a b, s = a ++ trim s ++ b ∧ (∀ c ∈ a, isBlank c = true) ∧ ∀ c ∈ b, isBlank c = true := by
  obtain ⟨a, ha, hab⟩ := dropWhile_leading_blank s
  obtain ⟨b, hb, hbb⟩ := rstrip_suffix_blank (s.dropWhile isBlank)
  refine ⟨a, b, ?_, hab, hbb⟩
  rw [trim_eq_rstrip_dropWhile, List.append_assoc, ← hb, ← ha]

theorem rstrip_rstrip (s : Str) : rstrip (rstrip s) = rstrip s := by
  induction s using List.reverseRecOn with
  | nil => rfl
  | append_singleton s c ih =>
    by_cases hb : isBlank c = true
    · rw [rstrip_append_blank _ _ hb, ih]
    · rw [rstrip_append_nonblank _ _ hb, rstrip_append_nonblank _ _ hb]

theorem trim_trim (s : Str) : trim (trim s) = trim s := by
  cases ht : trim s with
  | nil => rfl
  | cons x xs =>
    have hx : ¬ isBlank x = true := by
      have := trim_head s x (by rw [ht]; rfl)
      simp [this]
    rw [trim_cons_nonblank _ _ hx]
    have hr : rstrip (x :: xs) = x :: xs := by
      rw [← ht, trim_eq_rstrip_dropWhile, rstrip_rstrip]
    rw [rstrip_cons_nonblank _ _ hx] at hr
    exact hr

/-- C14: `trim s` is `s` without its longest leading run and its longest trailing run of
spaces and tabs; it is empty when `s` holds only spaces and tabs; `s` is a run of spaces and tabs,
then `trim s`, then a run of spaces and tabs; `trim s` neither begins nor ends with a
space or tab; and `trim (trim s) = trim s`. -/
theorem trim_contract (s : Str) :
    trim s = stripBlanks s ∧
    ((∀ c ∈ s, isBlank c = true) → trim s = []) ∧
    (∃ a b, s = a ++ trim s ++ b ∧ (∀ c ∈ a, isBlank c = true) ∧
      ∀ c ∈ b, isBlank c = true) ∧
    (∀ c, (trim s).head? = some c → isBlank c = false) ∧
    (∀ c, (trim s).getLast? = some c → isBlank c = false) ∧
    trim (trim s) = trim s :=
  ⟨trim_eq_stripBlanks s, trim_of_all_blank s, trim_decompose s, trim_head s, trim_getLast s,
    trim_trim s⟩

theorem trim_contract_witness :
    trim [' ', '\t', ' '] = [] ∧
    trim " \t a b \t".toList = stripBlanks " \t a b \t".toList ∧
    isBlank 'a' = false :=
  ⟨(trim_contract [' ', '\t', ' ']).2.1 (by decide), (trim_contract " \t a b \t".toList).1,
    (trim_contract " \t a b \t".toList).2.2.2.1 'a' (by decide)⟩

/-! ## Track names -/

/-- A property of the parser state that holds initially and is kept by every line holds
after any sequence of lines. -/
theorem parseRun_invariant (I : ParseState → Prop) (h0 : I initState)
    (hstep : ∀ st raw, I st → I (parseLine st raw)) (lines : List Str) :
    I (parseRun lines) := by
  have hfold : ∀ (ls : List Str) (st : ParseState), I st → I (ls.foldl parseLine st) := by
    intro ls
    induction ls with
    | nil => intro st h; exact h
    | cons l ls ih => intro st h; exact ih _ (hstep st l h)
  exact hfold lines initState h0

theorem parseRun_names_trimmed (lines : List Str) :
    (∀ t ∈ (parseRun lines).tracks, trim t.name = t.name) ∧
    trim (parseRun lines).current_track.name = (parseRun lines).current_track.name := by
  refine parseRun_invariant
    (fun st => (∀ t ∈ st.tracks, trim t.name = t.name) ∧
      trim st.current_track.name = st.current_track.name)
    ⟨by simp [initState], rfl⟩ ?_ lines
  rintro st raw ⟨ht, hc⟩
  rcases parseLine_cases st raw with ⟨h1, h2⟩ | ⟨h1, text, h2⟩ | ⟨_, h1, h2⟩ |
    ⟨note, _, _, h1, h2⟩
  · rw [h1, h2]; exact ⟨ht, hc⟩
  · rw [h1, h2]; exact ⟨ht, trim_trim text⟩
  · rw [h1, h2, computeStartTimes_name]
    refine ⟨fun t htm => ?_, hc⟩
    rcases List.mem_append.1 htm with htm | htm
    · exact ht t htm
    · rw [List.mem_singleton.1 htm, computeStartTimes_name]; exact hc
  · rw [h1, h2]; exact ⟨ht, hc⟩

/-- C15, as amended: the name of every track that the parser returns is trimmed: it is
its own trimmed form and neither begins nor ends with a space or tab. -/
theorem parseInput_names_trimmed (lines : List Str) :
    ∀ t ∈ parseInput lines, trim t.name = t.name ∧
      (∀ c, t.name.head? = some c → isBlank c = false) ∧
      (∀ c, t.name.getLast? = some c → isBlank c = false) := by
  intro t ht
  have h := (parseRun_names_trimmed lines).1 t ht
  refine ⟨h, ?_, ?_⟩
  · intro c hc
    rw [← h] at hc
    exact trim_head _ c hc
  · intro c hc
    rw [← h] at hc
    exact trim_getLast _ c hc

theorem parseInput_names_trimmed_witness :
    parseInput ["track  a b  \x7b".toList, "[0, 440, 100]".toList, "\x7d".toList]
      = [⟨"a b".toList, [⟨0, 440, 100⟩], [0]⟩] ∧
    trim "a b".toList = "a b".toList :=
  have hp : parseInput ["track  a b  \x7b".toList, "[0, 440, 100]".toList, "\x7d".toList]
      = [⟨"a b".toList, [⟨0, 440, 100⟩], [0]⟩] := by decide!
  ⟨hp, (parseInput_names_trimmed
    ["track  a b  \x7b".toList, "[0, 440, 100]".toList, "\x7d".toList]
    ⟨"a b".toList, [⟨0, 440, 100⟩], [0]⟩ (by rw [hp]; exact List.mem_singleton.2 rfl)).1⟩

/-- C15, counterexample: the block `track {` / `[0, 440, 100]` / `}` is returned as a track
whose name is the empty string. -/
theorem parseInput_empty_name :
    parseInput ["track \x7b".toList, "[0, 440, 100]".toList, "\x7d".toList]
      = [⟨[], [⟨0, 440, 100⟩], [0]⟩] ∧
    ¬ (∀ t ∈ parseInput ["track \x7b".toList, "[0, 440, 100]".toList, "\x7d".toList],
        t.name ≠ []) := by
  have hp : parseInput ["track \x7b".toList, "[0, 440, 100]".toList, "\x7d".toList]
      = [⟨[], [⟨0, 440, 100⟩], [0]⟩] := by decide!
  refine ⟨hp, fun h => ?_⟩
  rw [hp] at h
  exact h _ (List.mem_singleton.2 rfl) rfl

/-! ## Unterminated blocks, reported lines and independence of blocks -/

/-- Inside a track, a line without a closing brace commits nothing and leaves the parser
inside the track. -/
theorem parseLine_inside_no_close (st : ParseState) (raw : Str) (hin : st.in_track = true)
    (hraw : '}' ∉ raw) :
    (parseLine st raw).tracks = st.tracks ∧ (parseLine st raw).in_track = true := by
  have hclose : '}' ∉ trim raw := not_mem_trim _ _ hraw
  unfold parseLine
  simp only
  split
  · exact ⟨rfl, hin⟩
  · rw [if_neg (by simp [hin])]
    unfold parseInside
    rw [if_neg hclose]
    split
    · exact ⟨rfl, hin⟩
    · split
      · exact ⟨rfl, hin⟩
      · exact ⟨rfl, hin⟩

theorem foldl_inside_no_close (N : List Str) (st : ParseState) (hin : st.in_track = true)
    (hN : ∀ l ∈ N, '}' ∉ l) :
    (N.foldl parseLine st).tracks = st.tracks ∧ (N.foldl parseLine st).in_track = true := by
  induction N generalizing st with
  | nil => exact ⟨rfl, hin⟩
  | cons l ls ih =>
    obtain ⟨h1, h2⟩ := parseLine_inside_no_close st l hin (hN l (List.mem_cons_self _ _))
    obtain ⟨g1, g2⟩ := ih (parseLine st l) h2 (fun x hx => hN x (List.mem_cons_of_mem _ hx))
    exact ⟨by rw [List.foldl_cons, g1, h1], g2⟩

/-- Outside of a track, a header line (its trimmed form starts with `track` and holds an
opening brace) commits nothing and opens a track. -/
theorem parseLine_header (st : ParseState) (H : Str) (hout : st.in_track = false)
    (hstart : "track".toList <+: trim H) (hbrace : '{' ∈ trim H) :
    (parseLine st H).tracks = st.tracks ∧ (parseLine st H).in_track = true := by
  obtain ⟨r, hr⟩ := hstart
  have hne : ¬ (trim H = [] ∨ (trim H).head? = some '#') := by
    rw [← hr]
    simp
  have hfind : find (trim H) '{' ≠ none := by
    intro hnone
    have : ∀ (s : Str), find s '{' = none → '{' ∉ s := by
      intro s
      induction s with
      | nil => intro _ h; simp at h
      | cons x xs ih =>
        intro h hm
        rw [find_cons] at h
        split at h
        · simp at h
        · rename_i hx
          rcases List.mem_cons.1 hm with e | e
          · exact hx e.symm
          · cases hf : find xs '{' with
            | none => exact ih hf e
            | some i => rw [hf] at h; simp at h
    exact this _ hnone hbrace
  unfold parseLine
  simp only
  rw [if_neg hne, if_pos hout]
  unfold parseOutside
  rw [if_pos ⟨r, hr⟩]
  split
  · rename_i h; exact absurd h hfind
  · exact ⟨rfl, rfl⟩

/-- C13: when the parser is outside of a track after the lines `L`, a header line `H`
followed by lines `N` without a closing brace commits nothing: parsing `L ++ [H] ++ N`
returns the score of `L`, and the input ends inside the track that `H` opened. -/
theorem parseInput_unterminated (L N : List Str) (H : Str)
    (hL : (parseRun L).in_track = false) (hstart : "track".toList <+: trim H)
    (hbrace : '{' ∈ trim H) (hN : ∀ l ∈ N, '}' ∉ l) :
    parseInput (L ++ [H] ++ N) = parseInput L ∧
    (parseRun (L ++ [H] ++ N)).in_track = true := by
  obtain ⟨h1, h2⟩ := parseLine_header (parseRun L) H hL hstart hbrace
  obtain ⟨g1, g2⟩ := foldl_inside_no_close N (parseLine (parseRun L) H) h2 hN
  have hrun : parseRun (L ++ [H] ++ N) = N.foldl parseLine (parseLine (parseRun L) H) := by
    simp [parseRun, List.foldl_append]
  unfold parseInput
  rw [hrun]
  exact ⟨by rw [g1, h1], g2⟩

theorem parseInput_unterminated_witness :
    parseInput (["track a \x7b".toList, "[0, 440, 100]".toList, "\x7d".toList]
        ++ ["track b \x7b".toList] ++ ["[0, 220, 50]".toList, "[5, 330, 50]".toList])
      = parseInput ["track a \x7b".toList, "[0, 440, 100]".toList, "\x7d".toList] ∧
    (parseRun (["track a \x7b".toList, "[0, 440, 100]".toList, "\x7d".toList]
        ++ ["track b \x7b".toList] ++ ["[0, 220, 50]".toList, "[5, 330, 50]".toList])).in_track
      = true :=
  parseInput_unterminated ["track a \x7b".toList, "[0, 440, 100]".toList, "\x7d".toList]
    ["[0, 220, 50]".toList, "[5, 330, 50]".toList] "track b \x7b".toList
    (by decide!) (by decide) (by decide) (by decide)

theorem sameState_refl (st : ParseState) : SameState st st := ⟨rfl, rfl, rfl⟩

theorem parseLine_sameState (st1 st2 : ParseState) (raw : Str) (h : SameState st1 st2) :
    SameState (parseLine st1 raw) (parseLine st2 raw) := by
  obtain ⟨T1, c1, b1, e1⟩ := st1
  obtain ⟨T2, c2, b2, e2⟩ := st2
  obtain ⟨hT, hc, hb⟩ := h
  simp only at hT hc hb
  subst hT hc hb
  unfold parseLine
  simp only
  split
  · exact ⟨rfl, rfl, rfl⟩
  · split
    · unfold parseOutside
      simp only
      split
      · split <;> exact ⟨rfl, rfl, rfl⟩
      · exact ⟨rfl, rfl, rfl⟩
    · unfold parseInside
      simp only
      split
      · split <;> exact ⟨rfl, rfl, rfl⟩
      · split
        · exact ⟨rfl, rfl, rfl⟩
        · split <;> exact ⟨rfl, rfl, rfl⟩

theorem foldl_sameState (ls : List Str) (st1 st2 : ParseState) (h : SameState st1 st2) :
    SameState (ls.foldl parseLine st1) (ls.foldl parseLine st2) := by
  induction ls generalizing st1 st2 with
  | nil => exact h
  | cons l ls ih => exact ih _ _ (parseLine_sameState st1 st2 l h)

theorem parseLine_errorLine (st : ParseState) (raw : Str) (h : ErrorLine st raw) :
    SameState (parseLine st raw) st := by
  rcases h with ⟨hout, ⟨r, hr⟩, hbrace⟩ | ⟨hin, hclose, herr⟩
  · have hne : ¬ (trim raw = [] ∨ (trim raw).head? = some '#') := by
      rw [← hr]
      simp
    unfold parseLine
    simp only
    rw [if_neg hne, if_pos hout]
    unfold parseOutside
    rw [if_pos ⟨r, hr⟩, find_eq_none _ _ hbrace]
    exact ⟨rfl, rfl, rfl⟩
  · unfold parseLine
    simp only
    split
    · exact ⟨rfl, rfl, rfl⟩
    · rw [if_neg (by simp [hin])]
      unfold parseInside
      rw [if_neg hclose]
      split
      · exact ⟨rfl, rfl, rfl⟩
      · rename_i hhead
        rcases herr with h1 | h1
        · exact absurd h1 hhead
        · simp only [h1]
          exact ⟨rfl, rfl, rfl⟩

/-- C17: a reported line leaves the variables of the parser as they were, so deleting it
from the input leaves the returned score unchanged; and the block `track t {` / `[1,2]` /
`}` yields an empty score. -/
theorem parseInput_skips_error_lines :
    (∀ (st : ParseState) (raw : Str), ErrorLine st raw → SameState (parseLine st raw) st) ∧
    (∀ (A B : List Str) (raw : Str), ErrorLine (parseRun A) raw →
      parseInput (A ++ raw :: B) = parseInput (A ++ B)) ∧
    parseInput ["track t \x7b".toList, "[1,2]".toList, "\x7d".toList] = [] := by
  refine ⟨parseLine_errorLine, ?_, by decide!⟩
  intro A B raw h
  have h1 : parseRun (A ++ raw :: B) = B.foldl parseLine (parseLine (parseRun A) raw) := by
    simp [parseRun, List.foldl_append]
  have h2 : parseRun (A ++ B) = B.foldl parseLine (parseRun A) := by
    simp [parseRun, List.foldl_append]
  unfold parseInput
  rw [h1, h2]
  exact (foldl_sameState B _ _ (parseLine_errorLine _ raw h)).1

theorem parseInput_skips_error_lines_witness :
    parseInput (["track t \x7b".toList, "[0, 440, 100]".toList] ++ "[1,2]".toList ::
        ["\x7d".toList])
      = parseInput (["track t \x7b".toList, "[0, 440, 100]".toList] ++ ["\x7d".toList]) :=
  parseInput_skips_error_lines.2.1 ["track t \x7b".toList, "[0, 440, 100]".toList]
    ["\x7d".toList] "[1,2]".toList
    (Or.inr ⟨by decide!, by decide, Or.inr (by decide!)⟩)

theorem computeStartTimes_congr (t1 t2 : Track) (hname : t1.name = t2.name)
    (hnotes : t1.notes = t2.notes) (hne : t1.notes ≠ []) :
    computeStartTimes t1 = computeStartTimes t2 := by
  obtain ⟨n1, l1, s1⟩ := t1
  obtain ⟨n2, l2, s2⟩ := t2
  simp only at hname hnotes hne
  subst hname hnotes
  cases l1 with
  | nil => exact absurd rfl hne
  | cons x xs => rfl

theorem parseLine_ahead (T : List Track) (st1 st2 : ParseState) (raw : Str)
    (h : Ahead T st1 st2) : Ahead T (parseLine st1 raw) (parseLine st2 raw) := by
  obtain ⟨hT, hb, hc⟩ := h
  unfold parseLine
  simp only
  by_cases h1 : trim raw = [] ∨ (trim raw).head? = some '#'
  · rw [if_pos h1, if_pos h1]
    exact ⟨hT, hb, hc⟩
  · rw [if_neg h1, if_neg h1]
    by_cases hin : st1.in_track = false
    · have hin2 : st2.in_track = false := hb ▸ hin
      rw [if_pos hin, if_pos hin2]
      unfold parseOutside
      by_cases h2 : "track".toList <+: trim raw
      · rw [if_pos h2, if_pos h2]
        cases hf : find (trim raw) '{' with
        | none => exact ⟨hT, hb, hc⟩
        | some p => exact ⟨hT, rfl, fun _ => ⟨rfl, rfl⟩⟩
      · rw [if_neg h2, if_neg h2]
        exact ⟨hT, hb, hc⟩
    · have hin1 : st1.in_track = true := by simpa using hin
      have hin2 : ¬ st2.in_track = false := hb ▸ hin
      obtain ⟨hname, hnotes⟩ := hc hin1
      rw [if_neg hin, if_neg hin2]
      unfold parseInside
      by_cases h3 : '}' ∈ trim raw
      · rw [if_pos h3, if_pos h3]
        by_cases h4 : st1.current_track.notes ≠ []
        · rw [if_pos h4, if_pos (hnotes ▸ h4)]
          have hcs := computeStartTimes_congr _ _ hname hnotes h4
          refine ⟨?_, rfl, fun _ => ?_⟩
          · simp only [hT, hcs, List.append_assoc]
          · simp only [hcs, and_self]
        · rw [if_neg h4, if_neg (hnotes ▸ h4)]
          exact ⟨hT, rfl, fun hh => absurd hh (by simp)⟩
      · rw [if_neg h3, if_neg h3]
        by_cases h5 : (trim raw).head? ≠ some '['
        · rw [if_pos h5, if_pos h5]
          exact ⟨hT, hb, hc⟩
        · rw [if_neg h5, if_neg h5]
          cases he : extractNote (replaceCommas (noteStr (trim raw))) with
          | none => exact ⟨hT, hb, hc⟩
          | some note =>
            refine ⟨hT, hb, fun _ => ⟨hname, ?_⟩⟩
            simp only [hnotes]

theorem foldl_ahead (T : List Track) (ls : List Str) (st1 st2 : ParseState)
    (h : Ahead T st1 st2) : Ahead T (ls.foldl parseLine st1) (ls.foldl parseLine st2) := by
  induction ls generalizing st1 st2 with
  | nil => exact h
  | cons l ls ih => exact ih _ _ (parseLine_ahead T st1 st2 l h)

/-- C20: when the parser is outside of a track after the lines `A`, the score of
`A ++ B` is the score of `A` followed by the score of `B`: whatever the track under
construction still holds from `A` has no effect on the tracks read from `B`. -/
theorem parseInput_append (A B : List Str) (hA : (parseRun A).in_track = false) :
    parseInput (A ++ B) = parseInput A ++ parseInput B := by
  have h0 : Ahead (parseRun A).tracks (parseRun A) initState :=
    ⟨by simp [initState], hA, fun h => absurd h (by simp [hA])⟩
  have hrun : parseRun (A ++ B) = B.foldl parseLine (parseRun A) := by
    simp [parseRun, List.foldl_append]
  unfold parseInput
  rw [hrun]
  exact (foldl_ahead _ B _ _ h0).1

theorem parseInput_append_witness :
    parseInput (["track a \x7b".toList, "[0, 440, 100]".toList, "[7, 440, 100]".toList,
        "\x7d".toList, "track empty \x7b".toList, "\x7d".toList]
        ++ ["track b \x7b".toList, "[5, 220, 50]".toList, "\x7d".toList])
      = parseInput ["track a \x7b".toList, "[0, 440, 100]".toList, "[7, 440, 100]".toList,
          "\x7d".toList, "track empty \x7b".toList, "\x7d".toList]
        ++ parseInput ["track b \x7b".toList, "[5, 220, 50]".toList, "\x7d".toList] :=
  parseInput_append _ _ (by decide!)

/-! ## Notes of one track in time -/

/-- With non-negative deltas and durations, a note starts no earlier than any earlier note
of the track ends. -/
theorem startTimes_after_end (track : Track)
    (hnn : ∀ n ∈ track.notes, 0 ≤ n.delta_time ∧ 0 ≤ n.duration) (i j : Nat) (hij : i < j)
    (hj : j < track.notes.length) :
    (computeStartTimes track).start_times_ms.getD i 0 + (track.notes.getD i default).duration
      ≤ (computeStartTimes track).start_times_ms.getD j 0 := by
  induction j with
  | zero => omega
  | succ j ih =>
    have hstep := computeStartTimes_getD_succ track (j + 1) (by omega) hj
    simp only [Nat.add_sub_cancel] at hstep
    have hd := (hnn _ (getD_mem_of_lt track.notes (j + 1) default hj)).1
    by_cases h : i = j
    · subst h
      omega
    · have := ih (by omega) (by omega)
      have hdur := (hnn _ (getD_mem_of_lt track.notes j default (by omega))).2
      omega

/-- C18: for a track whose notes have `delta_time >= 0` and `duration >= 0`, the start
times that `computeStartTimes` computes are non-decreasing, each note starts no earlier
than the previous note ends, and the intervals
`[start_times_ms[i], start_times_ms[i] + notes[i].duration)` of two distinct notes have no
point in common. -/
theorem notes_do_not_overlap (track : Track)
    (hnn : ∀ n ∈ track.notes, 0 ≤ n.delta_time ∧ 0 ≤ n.duration) :
    (∀ i j, i ≤ j → j < track.notes.length →
      (computeStartTimes track).start_times_ms.getD i 0
        ≤ (computeStartTimes track).start_times_ms.getD j 0) ∧
    (∀ i, 1 ≤ i → i < track.notes.length →
      (computeStartTimes track).start_times_ms.getD (i - 1) 0
          + (track.notes.getD (i - 1) default).duration
        ≤ (computeStartTimes track).start_times_ms.getD i 0) ∧
    (∀ i j, i ≠ j → i < track.notes.length → j < track.notes.length → ∀ x : Int,
      ¬ (((computeStartTimes track).start_times_ms.getD i 0 ≤ x ∧
            x < (computeStartTimes track).start_times_ms.getD i 0
              + (track.notes.getD i default).duration) ∧
          ((computeStartTimes track).start_times_ms.getD j 0 ≤ x ∧
            x < (computeStartTimes track).start_times_ms.getD j 0
              + (track.notes.getD j default).duration))) := by
  refine ⟨fun i j hij hj => ?_, fun i h1 hi => ?_, fun i j hne hi hj x => ?_⟩
  · rcases Nat.lt_or_eq_of_le hij with h | h
    · have := startTimes_after_end track hnn i j h hj
      have hd := (hnn _ (getD_mem_of_lt track.notes i default (by omega))).2
      omega
    · subst h; exact le_refl _
  · exact startTimes_after_end track hnn (i - 1) i (by omega) hi
  · rintro ⟨⟨a1, a2⟩, b1, b2⟩
    rcases Nat.lt_or_gt_of_ne hne with h | h
    · have := startTimes_after_end track hnn i j h hj
      omega
    · have := startTimes_after_end track hnn j i h hi
      omega

theorem notes_do_not_overlap_witness :
    (computeStartTimes ⟨[], [⟨5, 440, 100⟩, ⟨0, 220, 30⟩, ⟨7, 220, 0⟩], []⟩).start_times_ms.getD
        0 0 + 100
      ≤ (computeStartTimes
          ⟨[], [⟨5, 440, 100⟩, ⟨0, 220, 30⟩, ⟨7, 220, 0⟩], []⟩).start_times_ms.getD 1 0 :=
  (notes_do_not_overlap ⟨[], [⟨5, 440, 100⟩, ⟨0, 220, 30⟩, ⟨7, 220, 0⟩], []⟩
    (by
      intro n hn
      simp only [List.mem_cons, List.mem_singleton, List.not_mem_nil, or_false] at hn
      rcases hn with rfl | rfl | rfl <;> exact ⟨by decide, by decide⟩)).2.1 1 (le_refl 1)
    (by decide)

/-! ## Buffer length and the samples of a note -/

theorem renderNote_eq (contrib : ℚ → Nat → Int) (track : Track) (i : Nat)
    (buffer : List Int) :
    renderNote contrib track i buffer
      = sampleLoop (contrib (track.notes.getD i default).frequency) (startSample track i)
          (durationSamples track i) 0 buffer := rfl

theorem renderTrackLoop_length (contrib : ℚ → Nat → Int) (track : Track) (n i : Nat)
    (buffer : List Int) : (renderTrackLoop contrib track n i buffer).length = buffer.length := by
  induction n generalizing i buffer with
  | zero => rfl
  | succ n ih => rw [renderTrackLoop, ih, renderNote_eq, sampleLoop_length]

theorem renderPass_length (contrib : ℚ → Nat → Int) (tracks : List Track)
    (buffer : List Int) : (renderPass contrib tracks buffer).length = buffer.length := by
  induction tracks generalizing buffer with
  | nil => rfl
  | cons t ts ih =>
    simp only [renderPass, List.foldl_cons] at ih ⊢
    rw [ih, renderTrackLoop_length]

theorem renderBuffer_length (contrib : ℚ → Nat → Int) (tracks : List Track) :
    (renderBuffer contrib tracks).length = total_samples tracks := by
  rw [renderBuffer, renderPass_length, List.length_replicate]

theorem floor_ms_eq (x : Int) : ⌊(x : ℚ) * 44100 / 1000⌋ = x * 44100 / 1000 := by
  have : (x : ℚ) * 44100 / 1000 = ((x * 44100 : Int) : ℚ) / ((1000 : Nat) : ℚ) := by
    push_cast
    ring
  rw [this, Rat.floor_intCast_div_natCast]
  rfl

theorem total_samples_eq_div (tracks : List Track) :
    (total_samples tracks : Int) = maxEndTime tracks * 44100 / 1000 := by
  have h0 := (maxEndTime_spec tracks).1
  rw [total_samples, toSizeT_nonneg _ (by simp only [sample_rate]; omega)]
  rfl

/-- In a score whose start times are the resolved ones and whose notes have
`delta_time >= 0` and `duration >= 0`, every note satisfies
`floor(start_time * 44100 / 1000) + floor(duration * 44100 / 1000) <= total_samples`; and
when the `int` product `duration * sample_rate` of the note is exact (it fits in 32
bits), `start_sample + duration_samples` is at most the buffer length, so every offset
`s < duration_samples` of the note has `start_sample + s` inside the buffer and the
`break` guard is not taken. -/
theorem samples_fit_when_product_exact (contrib : ℚ → Nat → Int) (tracks : List Track)
    (hres : ∀ t ∈ tracks, computeStartTimes t = t)
    (hnn : ∀ t ∈ tracks, ∀ n ∈ t.notes, 0 ≤ n.delta_time ∧ 0 ≤ n.duration)
    (t : Track) (ht : t ∈ tracks) (i : Nat) (hi : i < t.notes.length) :
    ⌊(t.start_times_ms.getD i 0 : ℚ) * 44100 / 1000⌋
        + ⌊((t.notes.getD i default).duration : ℚ) * 44100 / 1000⌋
      ≤ (total_samples tracks : Int) ∧
    (wrapInt ((t.notes.getD i default).duration * sample_rate)
        = (t.notes.getD i default).duration * sample_rate →
      (renderBuffer contrib tracks).length = total_samples tracks ∧
      startSample t i + durationSamples t i ≤ total_samples tracks ∧
      ∀ s, s < durationSamples t i → ¬ (total_samples tracks ≤ startSample t i + s)) := by
  have hs := startTimes_nonneg t (hres t ht) (hnn t ht) i hi
  have hd := (hnn t ht _ (getD_mem_of_lt t.notes i default hi)).2
  have hM : endTime t i ≤ maxEndTime tracks :=
    (maxEndTime_spec tracks).2.1 _ (mem_endTimes.2 ⟨t, ht, i, hi, rfl⟩)
  simp only [endTime] at hM
  have htot := total_samples_eq_div tracks
  have hsum : t.start_times_ms.getD i 0 * 44100 / 1000
      + (t.notes.getD i default).duration * 44100 / 1000
      ≤ maxEndTime tracks * 44100 / 1000 := by
    omega
  refine ⟨by rw [floor_ms_eq, floor_ms_eq, htot]; exact hsum, fun hexact => ?_⟩
  have h1 : (startSample t i : Int) = t.start_times_ms.getD i 0 * 44100 / 1000 := by
    rw [startSample, toSizeT_nonneg _ (by simp only [sample_rate]; omega)]
    rfl
  have h2 : (durationSamples t i : Int) = (t.notes.getD i default).duration * 44100 / 1000 := by
    rw [durationSamples, hexact, toSizeT_nonneg _ (by simp only [sample_rate]; omega)]
    rfl
  have hle : startSample t i + durationSamples t i ≤ total_samples tracks := by
    omega
  exact ⟨renderBuffer_length contrib tracks, hle, fun s hs => by omega⟩

/-- The `int` product `duration * sample_rate` does not fit in 32 bits from
`duration = 48696` on: reduced to 32 bits it is negative, and the conversion of the
negative quotient to `size_t` gives a count of samples near `2^64`. -/
theorem durationSamples_overflow :
    wrapInt (48695 * sample_rate) = 48695 * sample_rate ∧
    wrapInt (48696 * sample_rate) = -2147473696 ∧
    toSizeT (wrapInt (48696 * sample_rate)) = 18446744073707404143 := by
  decide

/-- C19: the `int` product `note.duration * sample_rate` overflows from `duration = 48696`
on, and then samples of the note are lost or the `break` guard is taken.  For the block
`track t {` / `[0, 440, 48696]` / `}` the buffer has `2147493` samples and
`duration_samples` is `18446744073707404143`, so at offset `2147493` the loop is still
running and the guard `start_sample + s >= buffer.size()` holds.  For the note
`[0, 440, 97392]` the buffer has `4294987` samples, which is
`floor(97392 * 44100 / 1000)`, but `duration_samples` is `19`: the loop stops after `19`
samples and sample `19` of the buffer is never written. -/
theorem duration_product_overflow :
    parseInput ["track t \x7b".toList, "[0, 440, 48696]".toList, "\x7d".toList]
      = [⟨"t".toList, [⟨0, 440, 48696⟩], [0]⟩] ∧
    total_samples [⟨"t".toList, [⟨0, 440, 48696⟩], [0]⟩] = 2147493 ∧
    startSample ⟨"t".toList, [⟨0, 440, 48696⟩], [0]⟩ 0 = 0 ∧
    durationSamples ⟨"t".toList, [⟨0, 440, 48696⟩], [0]⟩ 0 = 18446744073707404143 ∧
    (2147493 < durationSamples ⟨"t".toList, [⟨0, 440, 48696⟩], [0]⟩ 0 ∧
      total_samples [⟨"t".toList, [⟨0, 440, 48696⟩], [0]⟩]
        ≤ startSample ⟨"t".toList, [⟨0, 440, 48696⟩], [0]⟩ 0 + 2147493) ∧
    parseInput ["track t \x7b".toList, "[0, 440, 97392]".toList, "\x7d".toList]
      = [⟨"t".toList, [⟨0, 440, 97392⟩], [0]⟩] ∧
    total_samples [⟨"t".toList, [⟨0, 440, 97392⟩], [0]⟩] = 4294987 ∧
    ⌊((97392 : Int) : ℚ) * 44100 / 1000⌋ = 4294987 ∧
    startSample ⟨"t".toList, [⟨0, 440, 97392⟩], [0]⟩ 0 = 0 ∧
    durationSamples ⟨"t".toList, [⟨0, 440, 97392⟩], [0]⟩ 0 = 19 ∧
    (renderBuffer (fun _ _ => 6553) [⟨"t".toList, [⟨0, 440, 97392⟩], [0]⟩]).getD 18 0 = 6553 ∧
    (renderBuffer (fun _ _ => 6553) [⟨"t".toList, [⟨0, 440, 97392⟩], [0]⟩]).getD 19 0 = 0 := by
  have ht : total_samples [⟨"t".toList, [⟨0, 440, 97392⟩], [0]⟩] = 4294987 := by decide
  have hd : durationSamples ⟨"t".toList, [⟨0, 440, 97392⟩], [0]⟩ 0 = 19 := by decide
  have hs : startSample ⟨"t".toList, [⟨0, 440, 97392⟩], [0]⟩ 0 = 0 := by decide
  have hr : ∀ buffer,
      renderPass (fun _ _ => 6553) [⟨"t".toList, [⟨0, 440, 97392⟩], [0]⟩] buffer
        = sampleLoop (fun _ => 6553) 0 19 0 buffer := by
    intro buffer
    simp only [renderPass, List.foldl_cons, List.foldl_nil, List.length_cons, List.length_nil,
      renderTrackLoop, renderNote_eq, hd, hs, List.getD_cons_zero]
  have hb : renderBuffer (fun _ _ => 6553) [⟨"t".toList, [⟨0, 440, 97392⟩], [0]⟩]
      = sampleLoop (fun _ => 6553) 0 19 0 (List.replicate 4294987 0) := by
    rw [renderBuffer, ht, hr]
  have hz : ∀ k, k < 4294987 → (List.replicate 4294987 (0 : Int)).getD k 0 = 0 := by
    intro k hk
    rw [List.getD_eq_getElem _ _ (by rw [List.length_replicate]; exact hk),
      List.getElem_replicate]
  refine ⟨by decide!, by decide, by decide, by decide, by decide, by decide!, ht, ?_, hs, hd,
    ?_, ?_⟩
  · rw [floor_ms_eq]
    decide
  · rw [hb, sampleLoop_getD, List.length_replicate, if_pos (by omega), hz 18 (by omega)]
    decide
  · rw [hb, sampleLoop_getD, List.length_replicate, if_neg (by omega), hz 19 (by omega)]

theorem notesWithDuration_length (notes : List Note) (i : Nat) (d : Int) :
    (notesWithDuration notes i d).length = notes.length := List.length_set _ _ _

theorem notesWithDuration_getD (notes : List Note) (i k : Nat) (d : Int)
    (hi : i < notes.length) :
    (notesWithDuration notes i d).getD k default
      = if k = i then setDuration (notes.getD i default) d else notes.getD k default := by
  simp only [notesWithDuration, List.getD_eq_getElem?_getD, List.getElem?_set]
  by_cases h : i = k
  · subst h; simp [hi]
  · simp [h, Ne.symm h]

theorem notesWithDuration_delta (notes : List Note) (i k : Nat) (d : Int)
    (hi : i < notes.length) :
    ((notesWithDuration notes i d).getD k default).delta_time
      = (notes.getD k default).delta_time := by
  rw [notesWithDuration_getD _ _ _ _ hi]
  split
  · rename_i h; rw [h]; rfl
  · rfl

theorem notesWithDuration_duration_le (notes : List Note) (i k : Nat) (d : Int)
    (hi : i < notes.length) (hd : d ≤ (notes.getD i default).duration) :
    ((notesWithDuration notes i d).getD k default).duration
      ≤ (notes.getD k default).duration := by
  rw [notesWithDuration_getD _ _ _ _ hi]
  split
  · rename_i h; rw [h]; exact hd
  · exact le_refl _

theorem withDuration_notes (track : Track) (i : Nat) (d : Int) :
    (withDuration track i d).notes = notesWithDuration track.notes i d := by
  rw [withDuration, computeStartTimes_notes]

/-- Shortening one note moves no start time of the track later. -/
theorem withDuration_start_le (track : Track) (i : Nat) (d : Int)
    (hres : computeStartTimes track = track) (hi : i < track.notes.length)
    (hd : d ≤ (track.notes.getD i default).duration) (k : Nat)
    (hk : k < track.notes.length) :
    (withDuration track i d).start_times_ms.getD k 0 ≤ track.start_times_ms.getD k 0 := by
  have hne : track.notes ≠ [] := by intro h; simp [h] at hi
  have hne2 : notesWithDuration track.notes i d ≠ [] := by
    intro h
    have := congrArg List.length h
    rw [notesWithDuration_length] at this
    simp only [List.length_nil] at this
    omega
  induction k with
  | zero =>
    have h1 := computeStartTimes_getD_zero track hne
    rw [hres] at h1
    have h2 := computeStartTimes_getD_zero
      { track with notes := notesWithDuration track.notes i d } hne2
    simp only at h2
    rw [withDuration, h2, h1, notesWithDuration_delta _ _ _ _ hi]
  | succ k ih =>
    have h1 := computeStartTimes_getD_succ track (k + 1) (by omega) hk
    rw [hres] at h1
    have h2 := computeStartTimes_getD_succ
      { track with notes := notesWithDuration track.notes i d }
      (k + 1) (by omega) (by simp only [notesWithDuration_length]; exact hk)
    simp only [Nat.add_sub_cancel] at h1 h2
    have ih' := ih (by omega)
    rw [withDuration] at ih' ⊢
    rw [h2, h1, notesWithDuration_delta _ _ _ _ hi]
    have e2 := notesWithDuration_duration_le track.notes i k d hi hd
    omega

theorem withDuration_endTime_le (track : Track) (i : Nat) (d : Int)
    (hres : computeStartTimes track = track) (hi : i < track.notes.length)
    (hd : d ≤ (track.notes.getD i default).duration) (k : Nat)
    (hk : k < track.notes.length) :
    endTime (withDuration track i d) k ≤ endTime track k := by
  have h := withDuration_start_le track i d hres hi hd k hk
  have e2 := notesWithDuration_duration_le track.notes i k d hi hd
  simp only [endTime, withDuration_notes]
  omega

/-- The sizing pass is monotone: when every end time of one score is bounded by an end
time of another, its buffer length is not larger. -/
theorem total_samples_mono (tracks1 tracks2 : List Track)
    (h : ∀ e ∈ endTimes tracks1, ∃ e2 ∈ endTimes tracks2, e ≤ e2) :
    total_samples tracks1 ≤ total_samples tracks2 := by
  obtain ⟨a0, _, a2⟩ := maxEndTime_spec tracks1
  obtain ⟨b0, b1, _⟩ := maxEndTime_spec tracks2
  have hM : maxEndTime tracks1 ≤ maxEndTime tracks2 := by
    rcases a2 with a2 | a2
    · rw [a2]; exact b0
    · obtain ⟨e2, he2, hle⟩ := h _ a2
      exact le_trans hle (b1 e2 he2)
  have h1 := total_samples_eq_div tracks1
  have h2 := total_samples_eq_div tracks2
  omega

/-- C11: replacing the duration of one note of a resolved track of a score by a smaller
value and resolving the start times of that track again does not increase the buffer
length. -/
theorem shorter_note_not_longer_buffer (before after : List Track) (track : Track)
    (i : Nat) (d : Int) (hres : computeStartTimes track = track)
    (hi : i < track.notes.length) (hd : d ≤ (track.notes.getD i default).duration) :
    total_samples (before ++ [withDuration track i d] ++ after)
      ≤ total_samples (before ++ [track] ++ after) := by
  apply total_samples_mono
  intro e he
  obtain ⟨t, ht, k, hk, rfl⟩ := mem_endTimes.1 he
  simp only [List.mem_append, List.mem_singleton] at ht
  rcases ht with (ht | ht) | ht
  · exact ⟨_, mem_endTimes.2 ⟨t, by simp [ht], k, hk, rfl⟩, le_refl _⟩
  · subst ht
    have hk' : k < track.notes.length := by
      rw [withDuration_notes, notesWithDuration_length] at hk
      exact hk
    exact ⟨_, mem_endTimes.2 ⟨track, by simp, k, hk', rfl⟩,
      withDuration_endTime_le track i d hres hi hd k hk'⟩
  · exact ⟨_, mem_endTimes.2 ⟨t, by simp [ht], k, hk, rfl⟩, le_refl _⟩

theorem shorter_note_not_longer_buffer_witness :
    total_samples ([⟨[], [⟨0, 440, 10⟩], [0]⟩]
        ++ [withDuration ⟨[], [⟨5, 440, 100⟩, ⟨7, 220, 30⟩], [5, 112]⟩ 0 40] ++ [])
      ≤ total_samples ([⟨[], [⟨0, 440, 10⟩], [0]⟩]
        ++ [⟨[], [⟨5, 440, 100⟩, ⟨7, 220, 30⟩], [5, 112]⟩] ++ []) :=
  shorter_note_not_longer_buffer [⟨[], [⟨0, 440, 10⟩], [0]⟩] []
    ⟨[], [⟨5, 440, 100⟩, ⟨7, 220, 30⟩], [5, 112]⟩ 0 40
    (by simp [computeStartTimes, startTimesLoop]) (by decide) (by decide)

theorem ceil_ms_eq (x : Int) : ⌈(x : ℚ) * 44100 / 1000⌉ = -((-(x * 44100)) / 1000) := by
  have h : (x : ℚ) * 44100 / 1000 = -(((-x : Int) : ℚ) * 44100 / 1000) := by
    push_cast
    ring
  rw [h, Int.ceil_neg, floor_ms_eq]
  congr 2
  ring

/-- The value of `max_end_time` after the sizing pass: the maximum of the end times,
but not less than the initial `0`. -/
theorem maxEndTime_eq_max (tracks : List Track) (m : Int) (hm : m ∈ endTimes tracks)
    (hmax : ∀ e ∈ endTimes tracks, e ≤ m) : maxEndTime tracks = max 0 m := by
  obtain ⟨h0, hub, hmem⟩ := maxEndTime_spec tracks
  have h1 := hub m hm
  rcases hmem with h | h
  · rw [h] at h1 ⊢
    omega
  · have := hmax _ h
    omega

/-- C16, as amended: for a score with at least one note, whose greatest end time is `m`,
the buffer length is `floor(max(0, m) * 44100 / 1000)`; it is the ceiling of that
quotient exactly when `max(0, m)` is a multiple of `10` (the quotient is then a whole
number), and one less than the ceiling otherwise. -/
theorem total_samples_floor_not_ceil (tracks : List Track) (m : Int)
    (hm : m ∈ endTimes tracks) (hmax : ∀ e ∈ endTimes tracks, e ≤ m) :
    (total_samples tracks : Int) = ⌊((max 0 m : Int) : ℚ) * 44100 / 1000⌋ ∧
    ((total_samples tracks : Int) = ⌈((max 0 m : Int) : ℚ) * 44100 / 1000⌉ ↔
      (10 : Int) ∣ max 0 m) ∧
    (¬ (10 : Int) ∣ max 0 m →
      (total_samples tracks : Int) = ⌈((max 0 m : Int) : ℚ) * 44100 / 1000⌉ - 1) := by
  have hM := maxEndTime_eq_max tracks m hm hmax
  have htot := total_samples_eq_div tracks
  rw [hM] at htot
  rw [floor_ms_eq, ceil_ms_eq, htot]
  generalize max 0 m = M
  have hcases : M % 10 = 0 ∨ M % 10 = 1 ∨ M % 10 = 2 ∨ M % 10 = 3 ∨ M % 10 = 4 ∨
      M % 10 = 5 ∨ M % 10 = 6 ∨ M % 10 = 7 ∨ M % 10 = 8 ∨ M % 10 = 9 := by omega
  refine ⟨rfl, ⟨fun h => ?_, fun h => ?_⟩, fun h => ?_⟩
  · rcases hcases with c | c | c | c | c | c | c | c | c | c <;> omega
  · omega
  · rcases hcases with c | c | c | c | c | c | c | c | c | c <;> omega

theorem total_samples_floor_not_ceil_witness :
    (total_samples [⟨[], [⟨0, 440, 1⟩], [0]⟩] : Int)
      = ⌈((max 0 1 : Int) : ℚ) * 44100 / 1000⌉ - 1 :=
  (total_samples_floor_not_ceil [⟨[], [⟨0, 440, 1⟩], [0]⟩] 1 (by decide) (by decide)).2.2
    (by decide)

/-- C16, counterexample: for the score of the block `track t {` / `[0, 440, 1]` / `}` the
greatest end time is `1` ms and the buffer holds `44` samples, while
`ceil(1 * 44100 / 1000) = 45`. -/
theorem total_samples_not_ceil :
    parseInput ["track t \x7b".toList, "[0, 440, 1]".toList, "\x7d".toList]
      = [⟨"t".toList, [⟨0, 440, 1⟩], [0]⟩] ∧
    endTimes [⟨"t".toList, [⟨0, 440, 1⟩], [0]⟩] = [1] ∧
    total_samples [⟨"t".toList, [⟨0, 440, 1⟩], [0]⟩] = 44 ∧
    ⌈((1 : Int) : ℚ) * 44100 / 1000⌉ = 45 := by
  refine ⟨by decide!, by decide, by decide, ?_⟩
  rw [ceil_ms_eq]
  decide

/-! ## Order of rendering -/

theorem mixSample_eq_toShort (v c : Int) : mixSample v c = toShort (v + c) := by
  simp only [mixSample, toShort]
  omega

theorem toShort_add (a b : Int) : toShort (toShort a + b) = toShort (a + b) := by
  simp only [toShort]
  omega

theorem ext_getD (l1 l2 : List Int) (hlen : l1.length = l2.length)
    (h : ∀ k, k < l1.length → l1.getD k 0 = l2.getD k 0) : l1 = l2 := by
  apply List.ext_getElem hlen
  intro k h1 h2
  have := h k h1
  rwa [List.getD_eq_getElem _ _ h1, List.getD_eq_getElem _ _ h2] at this

theorem additive_sampleLoop (c : Nat → Int) (start n : Nat) :
    Additive (sampleLoop c start n 0) := by
  refine ⟨fun k => decide (start ≤ k ∧ k < start + n), fun k => c (k - start), fun buffer =>
    ⟨sampleLoop_length _ _ _ _ _, fun k hk => ?_⟩⟩
  rw [sampleLoop_getD, mixSample_eq_toShort]
  by_cases h : start ≤ k ∧ k < start + n
  · rw [if_pos ⟨by omega, by omega, hk⟩, if_pos (by simpa using h)]
  · rw [if_neg (by omega), if_neg (by simpa using h)]

theorem additive_comp (G H : List Int → List Int) (hG : Additive G) (hH : Additive H) :
    Additive (fun buffer => H (G buffer)) := by
  obtain ⟨tG, aG, hG⟩ := hG
  obtain ⟨tH, aH, hH⟩ := hH
  refine ⟨fun k => tG k || tH k,
    fun k => (if tG k = true then aG k else 0) + (if tH k = true then aH k else 0),
    fun buffer => ⟨by rw [(hH _).1, (hG _).1], fun k hk => ?_⟩⟩
  rw [(hH _).2 k (by rw [(hG _).1]; exact hk), (hG _).2 k hk]
  by_cases h1 : tG k = true <;> by_cases h2 : tH k = true <;>
    simp only [h1, h2, if_true, if_false, Bool.or_true, Bool.true_or, Bool.or_self,
      Bool.false_eq_true, Bool.or_false, add_zero, zero_add]
  rw [toShort_add, add_assoc]

theorem additive_renderTrackLoop (contrib : ℚ → Nat → Int) (track : Track) (n i : Nat) :
    Additive (renderTrackLoop contrib track n i) := by
  induction n generalizing i with
  | zero => exact ⟨fun _ => false, fun _ => 0, fun buffer => ⟨rfl, fun k _ => by simp [renderTrackLoop]⟩⟩
  | succ n ih =>
    have h := additive_comp (renderNote contrib track i) (renderTrackLoop contrib track n (i + 1))
      (additive_sampleLoop _ _ _) (ih (i + 1))
    exact h

/-- Two additive operations can be applied in either order. -/
theorem additive_comm (G H : List Int → List Int) (hG : Additive G) (hH : Additive H)
    (buffer : List Int) : G (H buffer) = H (G buffer) := by
  obtain ⟨tG, aG, hG⟩ := hG
  obtain ⟨tH, aH, hH⟩ := hH
  apply ext_getD
  · rw [(hG _).1, (hH _).1, (hH _).1, (hG _).1]
  · intro k hk
    rw [(hG _).1, (hH _).1] at hk
    rw [(hG _).2 k (by rw [(hH _).1]; exact hk), (hH _).2 k hk,
      (hH _).2 k (by rw [(hG _).1]; exact hk), (hG _).2 k hk]
    by_cases h1 : tG k = true <;> by_cases h2 : tH k = true <;>
      simp only [h1, h2, if_true, if_false, Bool.false_eq_true]
    rw [toShort_add, toShort_add, add_right_comm]

theorem renderPass_perm (contrib : ℚ → Nat → Int) (tracks1 tracks2 : List Track)
    (h : tracks1.Perm tracks2) (buffer : List Int) :
    renderPass contrib tracks1 buffer = renderPass contrib tracks2 buffer := by
  unfold renderPass
  exact h.foldl_eq' (fun x _ y _ z =>
    additive_comm _ _ (additive_renderTrackLoop contrib y y.notes.length 0)
      (additive_renderTrackLoop contrib x x.notes.length 0) z) buffer

theorem maxEndTime_perm (tracks1 tracks2 : List Track) (h : tracks1.Perm tracks2) :
    maxEndTime tracks1 = maxEndTime tracks2 := by
  have hmem : ∀ e, e ∈ endTimes tracks1 ↔ e ∈ endTimes tracks2 := by
    intro e
    simp only [mem_endTimes]
    constructor
    · rintro ⟨t, ht, r⟩; exact ⟨t, h.mem_iff.1 ht, r⟩
    · rintro ⟨t, ht, r⟩; exact ⟨t, h.mem_iff.2 ht, r⟩
  obtain ⟨a0, a1, a2⟩ := maxEndTime_spec tracks1
  obtain ⟨b0, b1, b2⟩ := maxEndTime_spec tracks2
  apply le_antisymm
  · rcases a2 with a2 | a2
    · rw [a2]; exact b0
    · exact b1 _ ((hmem _).1 a2)
  · rcases b2 with b2 | b2
    · rw [b2]; exact a0
    · exact a1 _ ((hmem _).2 b2)

/-- C12: rendering a score and rendering any permutation of its tracks give the same
buffer: the same length and the same value at every sample index, for every sine
contribution, whatever the sums of the overlapping contributions are. -/
theorem renderBuffer_perm (contrib : ℚ → Nat → Int) (tracks permuted : List Track)
    (h : tracks.Perm permuted) :
    renderBuffer contrib permuted = renderBuffer contrib tracks ∧
    (renderBuffer contrib permuted).length = (renderBuffer contrib tracks).length ∧
    ∀ k, (renderBuffer contrib permuted).getD k 0 = (renderBuffer contrib tracks).getD k 0 := by
  have heq : renderBuffer contrib permuted = renderBuffer contrib tracks := by
    unfold renderBuffer total_samples
    rw [maxEndTime_perm tracks permuted h, renderPass_perm contrib tracks permuted h]
  exact ⟨heq, by rw [heq], fun k => by rw [heq]⟩

theorem renderBuffer_perm_witness :
    renderBuffer (fun _ _ => 6553)
        [⟨['b'], [⟨1, 220, 2⟩], [1]⟩, ⟨['a'], [⟨0, 440, 2⟩], [0]⟩]
      = renderBuffer (fun _ _ => 6553)
        [⟨['a'], [⟨0, 440, 2⟩], [0]⟩, ⟨['b'], [⟨1, 220, 2⟩], [1]⟩] :=
  (renderBuffer_perm (fun _ _ => 6553)
    [⟨['a'], [⟨0, 440, 2⟩], [0]⟩, ⟨['b'], [⟨1, 220, 2⟩], [1]⟩]
    [⟨['b'], [⟨1, 220, 2⟩], [1]⟩, ⟨['a'], [⟨0, 440, 2⟩], [0]⟩] (List.Perm.swap _ _ _)).1

end SoundTools
